import Mathlib

/-!
Verification of the pole-optimization core of a factorio blueprint optimizer.

Shallow embedding conventions:
* Rust `f64` map-space coordinates are modelled as `Q`.  Every comparison
  appearing in a concrete theorem below is decided at a margin that is many
  orders of magnitude wider than `f64` rounding error, so exact rational
  arithmetic and `f64` arithmetic agree at those inputs.
* `i32` tile coordinates are modelled as `ℤ`, entity ids (`u32`) as `ℕ`
  (no arithmetic near `2^32` occurs anywhere below).
* Hash containers are modelled as association lists; where the source
  iterates a hash container in unspecified order, the embedding iterates in
  insertion order, and no theorem below depends on that choice except
  through explicitly deterministic re-sorting done by the source itself.
* Panicking operations (`unwrap`, indexing) are modelled with `Option`
  where a claim is about the panic, and are documented where a
  well-formedness invariant makes them unreachable.
-/

namespace FBO

/-! ### Exact rationals.

Mathlib's `Q` arithmetic (`Rat.add`, `Rat.mul`, ...) is `@[irreducible]`
upstream and therefore cannot be evaluated by `decide`; the embedding uses
this self-contained fraction type instead.  Every constructor below keeps
the denominator positive, and under that invariant `≤`, `<` and the
arithmetic denote the usual rational operations. -/

structure Q where
  n : ℤ
  d : ℤ
deriving DecidableEq, Repr

instance (k : Nat) : OfNat Q k := ⟨⟨(k : ℤ), 1⟩⟩

instance : NatCast Q := ⟨fun k => ⟨(k : ℤ), 1⟩⟩

instance : IntCast Q := ⟨fun i => ⟨i, 1⟩⟩

instance : Neg Q := ⟨fun a => ⟨-a.n, a.d⟩⟩

instance : Add Q := ⟨fun a b => ⟨a.n * b.d + b.n * a.d, a.d * b.d⟩⟩

instance : Sub Q := ⟨fun a b => ⟨a.n * b.d - b.n * a.d, a.d * b.d⟩⟩

instance : Mul Q := ⟨fun a b => ⟨a.n * b.n, a.d * b.d⟩⟩

/-- Inverse; `Q.inv 0 = 0` by convention (the sites relying on it document
    the corresponding `f64` behaviour). -/
def Q.inv (a : Q) : Q :=
  if a.n = 0 then ⟨0, 1⟩
  else if a.n < 0 then ⟨-a.d, -a.n⟩ else ⟨a.d, a.n⟩

instance : Div Q := ⟨fun a b => a * b.inv⟩

instance : LE Q := ⟨fun a b => a.n * b.d ≤ b.n * a.d⟩

instance : LT Q := ⟨fun a b => a.n * b.d < b.n * a.d⟩

instance (a b : Q) : Decidable (a ≤ b) :=
  inferInstanceAs (Decidable (a.n * b.d ≤ b.n * a.d))

instance (a b : Q) : Decidable (a < b) :=
  inferInstanceAs (Decidable (a.n * b.d < b.n * a.d))

/-- Value equality (structural `Q` equality is finer; comparisons below
    always use `Q.le` / `Q.lt` / `Q.valEq`, mirroring how the source only
    ever compares `f64`s by order, never by bit pattern). -/
def Q.valEq (a b : Q) : Bool :=
  a.n * b.d = b.n * a.d

/-- Is the denoted value zero (denominators are positive)? -/
def Q.isZeroQ (a : Q) : Bool := a.n = 0

/-- `f64::min`. -/
def Q.minQ (a b : Q) : Q := if a ≤ b then a else b

/-- `f64::abs`. -/
def Q.absQ (a : Q) : Q := ⟨(a.n.natAbs : ℤ), a.d⟩

/-- Square (`powi(2)`). -/
def Q.sq (a : Q) : Q := a * a

/-- Floor of the denoted value (denominator positive). -/
def Q.floorQ (a : Q) : ℤ := Int.fdiv a.n a.d

/-- Ceiling of the denoted value. -/
def Q.ceilQ (a : Q) : ℤ := -Int.fdiv (-a.n) a.d

/-- Mathematical sign of the denoted value.  Rust's `f64::signum` maps
    `±0.0` to `±1.0`; the two agree away from exact zeros, and no
    evaluation below hits a zero. -/
def Q.signQ (a : Q) : ℤ := Int.sign a.n

/-! ### Geometry: position.rs -/

/-- Map-space position (`MapPosition = Point2D<f64, MapSpace>`), y grows down. -/
structure MapPos where
  x : Q
  y : Q
deriving DecidableEq, Repr

/-- Tile-space position (`TilePosition = Point2D<i32, TileSpace>`). -/
structure TilePos where
  x : ℤ
  y : ℤ
deriving DecidableEq, Repr

/-- Map-space axis-aligned box (`BoundingBox = Box2D<f64, MapSpace>`). -/
structure BBox where
  minx : Q
  miny : Q
  maxx : Q
  maxy : Q
deriving DecidableEq, Repr

/-- Tile-space box (`TileBoundingBox = Box2D<i32, TileSpace>`). -/
structure TileBox where
  minx : ℤ
  miny : ℤ
  maxx : ℤ
  maxy : ℤ
deriving DecidableEq, Repr

/-- `(min.x..max.x)` style integer range as a list. -/
def intRange (lo hi : ℤ) : List ℤ :=
  (List.range (hi - lo).toNat).map (fun (i : ℕ) => lo + (i : ℤ))

/-- `IterTiles for TileBoundingBox`: x outer loop, y inner loop. -/
def TileBox.iterTiles (b : TileBox) : List TilePos :=
  (intRange b.minx b.maxx).flatMap
    (fun x => (intRange b.miny b.maxy).map (fun y => ⟨x, y⟩))

/-- Rust `f64::round`: round to nearest, halves away from zero. -/
def roundAway (q : Q) : ℤ :=
  if 0 ≤ q then (q + 1/2).floorQ else -((1/2 - q).floorQ)

/-- `BoundingBoxExt::round_out_to_tiles`: floor the min, ceil the max. -/
def BBox.roundOutToTiles (b : BBox) : TileBox :=
  ⟨b.minx.floorQ, b.miny.floorQ, b.maxx.ceilQ, b.maxy.ceilQ⟩

/-- `IterTiles for BoundingBox`: round out, then iterate. -/
def BBox.iterTiles (b : BBox) : List TilePos :=
  b.roundOutToTiles.iterTiles

/-- `BoundingBoxExt::round_to_tiles_covering_center`:
    expand by `eps = 1e-6` on every side, then round each coordinate
    to the nearest integer (`Box2D::round`, i.e. `f64::round` per coordinate). -/
def BBox.roundToTilesCoveringCenter (b : BBox) : TileBox :=
  let eps : Q := 1/1000000
  ⟨roundAway (b.minx - eps), roundAway (b.miny - eps),
   roundAway (b.maxx + eps), roundAway (b.maxy + eps)⟩

/-- `BoundingBoxExt::around_point`. -/
def BBox.aroundPoint (c : MapPos) (radius : Q) : BBox :=
  ⟨c.x - radius, c.y - radius, c.x + radius, c.y + radius⟩

/-- `Box2D::translate` by a vector (here given as a `MapPos`). -/
def BBox.translate (b : BBox) (v : MapPos) : BBox :=
  ⟨b.minx + v.x, b.miny + v.y, b.maxx + v.x, b.maxy + v.y⟩

/-- `ContractMax::contract_max`. -/
def TileBox.contractMax (b : TileBox) (amt : ℤ) : TileBox :=
  ⟨b.minx, b.miny, b.maxx - amt, b.maxy - amt⟩

/-- `MapPositionExt::tile_pos`: componentwise floor. -/
def MapPos.tilePos (p : MapPos) : TilePos :=
  ⟨p.x.floorQ, p.y.floorQ⟩

/-- `TileSpaceExt::center_map_pos`. -/
def TilePos.centerMapPos (t : TilePos) : MapPos :=
  ⟨(t.x : Q) + 1/2, (t.y : Q) + 1/2⟩

/-- `TileSpaceExt::corner_map_pos`. -/
def TilePos.cornerMapPos (t : TilePos) : MapPos :=
  ⟨(t.x : Q), (t.y : Q)⟩

/-- `CardinalDirection`. -/
inductive CardinalDirection where
  | north
  | east
  | south
  | west
deriving DecidableEq, Repr

/-- `CardinalDirection::from_u8_rounding`: fold 0..7 to cardinal by pairs. -/
def CardinalDirection.fromU8Rounding (dir : Nat) : CardinalDirection :=
  match dir % 8 with
  | 0 | 1 => .north
  | 2 | 3 => .east
  | 4 | 5 => .south
  | _ => .west

/-- `Rotate for Box2D` with y pointing down. -/
def BBox.rotate (b : BBox) (d : CardinalDirection) : BBox :=
  match d with
  | .north => b
  | .east => ⟨-b.maxy, b.minx, -b.miny, b.maxx⟩
  | .south => ⟨-b.maxx, -b.maxy, -b.minx, -b.miny⟩
  | .west => ⟨b.miny, -b.maxx, b.maxy, -b.minx⟩

/-- Squared length of the vector between two map positions
    (`(a - b).square_length()`). -/
def MapPos.sqDist (a b : MapPos) : Q :=
  (a.x - b.x).sq + (a.y - b.y).sq

/-! ### Prototypes and entities: prototype_data.rs, bp_model/mod.rs -/

/-- `PoleData`. -/
structure PoleData where
  supply_radius : Q
  wire_distance : Q
deriving DecidableEq, Repr

/-- `EntityPrototype` behind an `RcId` handle.  `ptr` models the `Rc`
    pointer, so structural equality of this record models `RcId`'s
    pointer equality whenever distinct records carry distinct `ptr`s
    (which all constructions below respect). -/
structure EntityPrototype where
  ptr : Nat
  tile_width : Nat
  tile_height : Nat
  collision_box : BBox
  uses_power : Bool
  pole_data : Option PoleData
deriving DecidableEq, Repr

abbrev EntityId := Nat

/-- `WorldEntity`. -/
structure WorldEntity where
  prototype : EntityPrototype
  position : MapPos
  direction : Nat
deriving DecidableEq, Repr

/-- `WorldEntity::local_bbox`. -/
def WorldEntity.localBbox (e : WorldEntity) : BBox :=
  e.prototype.collision_box.rotate (CardinalDirection.fromU8Rounding e.direction)

/-- `WorldEntity::world_bbox`. -/
def WorldEntity.worldBbox (e : WorldEntity) : BBox :=
  e.localBbox.translate e.position

/-- `WorldEntity::uses_power`: not a pole, and the prototype consumes power. -/
def WorldEntity.usesPower (e : WorldEntity) : Bool :=
  e.prototype.pole_data.isNone && e.prototype.uses_power

/-- `PoleConnections` (a `HashSet<EntityId>`, modelled as a duplicate-free
    list; `insert` below appends only when absent). -/
structure PoleConnections where
  connections : List EntityId
deriving DecidableEq, Repr

/-- `EntityExtraData`. -/
inductive EntityExtraData where
  | pole (c : PoleConnections)
  | noExtra
deriving DecidableEq, Repr

/-- `ModelEntity`. -/
structure ModelEntity where
  entity : WorldEntity
  id : EntityId
  extra : EntityExtraData
deriving DecidableEq, Repr

/-- `ModelEntity::new_empty`. -/
def ModelEntity.newEmpty (id : EntityId) (entity : WorldEntity) : ModelEntity :=
  ⟨entity, id,
   if entity.prototype.pole_data.isSome then .pole ⟨[]⟩ else .noExtra⟩

/-- `ModelEntity::pole_data`: pole extra data together with the prototype's
    `PoleData`.  The source `unwrap`s the prototype field when the extra data
    says pole; `new_empty` couples the two, so for every model built by the
    API the `none` fallback of the `Option.bind` is never taken. -/
def ModelEntity.poleData (e : ModelEntity) : Option (PoleData × PoleConnections) :=
  match e.extra with
  | .pole c => e.entity.prototype.pole_data.map (fun pd => (pd, c))
  | .noExtra => none

/-- `ModelEntity::pole_connections`. -/
def ModelEntity.poleConnections (e : ModelEntity) : Option PoleConnections :=
  match e.extra with
  | .pole c => some c
  | .noExtra => none

/-! ### Association-list helpers (model for `HashMap`). -/

def alookup [DecidableEq α] (k : α) : List (α × β) → Option β
  | [] => none
  | (k', v) :: rest => if k' = k then some v else alookup k rest

def aerase [DecidableEq α] (k : α) : List (α × β) → List (α × β)
  | [] => []
  | (k', v) :: rest => if k' = k then rest else (k', v) :: aerase k rest

/-- Replace the value at an existing key (first occurrence). -/
def aupdate [DecidableEq α] (k : α) (v : β) : List (α × β) → List (α × β)
  | [] => []
  | (k', v') :: rest =>
    if k' = k then (k, v) :: rest else (k', v') :: aupdate k v rest

/-- Stable insertion into a sorted list (model of the source's stable
    sorts: `sorted_by_key`, `sorted_by(partial_cmp)`). -/
def insertSorted (le : α → α → Bool) (x : α) : List α → List α
  | [] => [x]
  | y :: ys => if le x y then x :: y :: ys else y :: insertSorted le x ys

def sortStable (le : α → α → Bool) (l : List α) : List α :=
  l.foldr (insertSorted le) []

/-! ### The entity model: `BpModel`. -/

/-- `BpModel`: tile-bucket index, entity table, next fresh id. -/
structure BpModel where
  by_tile : List (TilePos × List EntityId)
  all_entities : List (EntityId × ModelEntity)
  next_id : EntityId
deriving DecidableEq, Repr

/-- `BpModel::new`. -/
def BpModel.new : BpModel := ⟨[], [], 1⟩

/-- `by_tile.entry(tile).or_default().push(id)`. -/
def bucketPush (bt : List (TilePos × List EntityId)) (tile : TilePos)
    (id : EntityId) : List (TilePos × List EntityId) :=
  match alookup tile bt with
  | some ids => aupdate tile (ids ++ [id]) bt
  | none => bt ++ [(tile, [id])]

/-- `BpModel::add_internal`: push the id into every bucket the world bbox
    overlaps, then insert into `all_entities`.  The source panics when the
    id is already present; every call site below reaches this only with a
    fresh id, so the embedding appends unconditionally. -/
def BpModel.addInternal (m : BpModel) (e : ModelEntity) : BpModel :=
  { m with
    by_tile := e.entity.worldBbox.iterTiles.foldl
      (fun bt tile => bucketPush bt tile e.id) m.by_tile,
    all_entities := m.all_entities ++ [(e.id, e)] }

/-- `BpModel::add_overlap`: returns the assigned id and the new model. -/
def BpModel.addOverlap (m : BpModel) (e : WorldEntity) : EntityId × BpModel :=
  let id := m.next_id
  (id, ({ m with next_id := m.next_id + 1 }).addInternal (ModelEntity.newEmpty id e))

/-- `BpModel::occupied`. -/
def BpModel.occupied (m : BpModel) (tile : TilePos) : Bool :=
  (alookup tile m.by_tile).isSome

/-- `BpModel::can_place`. -/
def BpModel.canPlace (m : BpModel) (e : WorldEntity) : Bool :=
  e.worldBbox.iterTiles.all (fun tile => !(m.occupied tile))

/-- `BpModel::add_no_overlap`. -/
def BpModel.addNoOverlap (m : BpModel) (e : WorldEntity) :
    Option (EntityId × BpModel) :=
  if e.worldBbox.iterTiles.all (fun tile => !(m.occupied tile)) then
    some (m.addOverlap e)
  else
    none

/-- Append `x` when it is not already in the list (`HashSet::insert`). -/
def listInsert [DecidableEq α] (x : α) (l : List α) : List α :=
  if x ∈ l then l else l ++ [x]

/-- `BpModel::add_cable_connection`.  Returns `none` exactly when the source
    returns `None` (missing entity, identical ids — `get_many_mut` requires
    disjoint keys —, missing pole data, distance exceeded); in all those
    cases the source leaves the model unchanged, since all mutations happen
    after the last early return. -/
def BpModel.addCableConnection (m : BpModel) (id other_id : EntityId) :
    Option BpModel :=
  if id = other_id then none else
  match alookup id m.all_entities, alookup other_id m.all_entities with
  | some this, some other =>
    match this.entity.prototype.pole_data, other.entity.prototype.pole_data with
    | some pd1, some pd2 =>
      let max_dist := Q.minQ pd1.wire_distance pd2.wire_distance
      if max_dist * max_dist < this.entity.position.sqDist other.entity.position then
        none
      else
        match this.poleConnections, other.poleConnections with
        | some c1, some c2 =>
          let this' := { this with extra := .pole ⟨listInsert other_id c1.connections⟩ }
          let other' := { other with extra := .pole ⟨listInsert id c2.connections⟩ }
          some { m with all_entities :=
                   aupdate other_id other' (aupdate id this' m.all_entities) }
        | _, _ => none
    | _, _ => none
  | _, _ => none

/-- `BpModel::remove`, with the two panicking `unwrap`s modelled as `none`:
    the entity-table lookup, and the bucket lookup for each tile of the
    removed entity's world bbox. -/
def BpModel.removeQ (m : BpModel) (id : EntityId) : Option BpModel :=
  match alookup id m.all_entities with
  | none => none
  | some e =>
    (e.entity.worldBbox.iterTiles.foldlM
      (fun (bt : List (TilePos × List EntityId)) tile =>
        match alookup tile bt with
        | none => none
        | some ids =>
          let ids' := ids.filter (fun x => x ≠ id)
          some (if ids'.isEmpty then aerase tile bt else aupdate tile ids' bt))
      m.by_tile).map
    (fun bt => { m with by_tile := bt, all_entities := aerase id m.all_entities })

/-- `BpModel::get`. -/
def BpModel.get (m : BpModel) (id : EntityId) : Option ModelEntity :=
  alookup id m.all_entities

/-- `BpModel::get_at_tile`.  The source indexes `all_entities[id]` and would
    panic on a dangling bucket id; the embedding drops such ids.  Under the
    well-formedness invariant `BpModel.wfB` the two agree. -/
def BpModel.getAtTile (m : BpModel) (tile : TilePos) : List ModelEntity :=
  ((alookup tile m.by_tile).getD []).filterMap (fun id => alookup id m.all_entities)

/-- Keep the first occurrence of each id (`Itertools::unique_by(id)`). -/
def dedupById : List ModelEntity → List ModelEntity :=
  go []
where
  go (seen : List EntityId) : List ModelEntity → List ModelEntity
    | [] => []
    | e :: rest =>
      if e.id ∈ seen then go seen rest else e :: go (e.id :: seen) rest

/-- `BpModel::powered_entities`: tiles of the supply box rounded out,
    flat-mapped through the tile buckets, filtered by `uses_power`,
    deduplicated by id.  There is no Euclidean-distance filter in the
    source. -/
def BpModel.poweredEntities (m : BpModel) (pole_pos : MapPos) (pd : PoleData) :
    List ModelEntity :=
  dedupById
    (((BBox.aroundPoint pole_pos pd.supply_radius).roundOutToTiles.iterTiles.flatMap
        (fun tile => m.getAtTile tile)).filter
      (fun e => e.entity.usesPower))

/-- `BpModel::is_connectable_pole`, with `EPS = 1e-6`. -/
def BpModel.isConnectablePole (pole_pos : MapPos) (pd : PoleData)
    (target : WorldEntity) : Bool :=
  match target.prototype.pole_data with
  | none => false
  | some pd2 =>
    let max_dist := Q.minQ pd.wire_distance pd2.wire_distance
    decide (pole_pos.sqDist target.position ≤ max_dist * max_dist + 1/1000000)

/-- `BpModel::all_entities_grid_order`: buckets sorted by tile `(x, y)`
    tuple, flattened, deduplicated by id (first occurrence), looked up. -/
def BpModel.allEntitiesGridOrder (m : BpModel) : List ModelEntity :=
  dedupById
    ((sortStable
        (fun (a b : TilePos) =>
          decide (a.x < b.x) || (decide (a.x = b.x) && decide (a.y ≤ b.y)))
        (m.by_tile.map Prod.fst)).flatMap
      (fun tile => m.getAtTile tile))

/-! ### Sliding 2D window: pole_windows.rs -/

/-- `GetAtPos for &BpModel`: ids at a tile. -/
def windowIdsAt (m : BpModel) (pos : TilePos) : List EntityId :=
  (m.getAtTile pos).map ModelEntity.id

/-- `*self.current_counts.entry(id).or_insert(0) += 1`. -/
def countsInc (cc : List (EntityId × Nat)) (id : EntityId) :
    List (EntityId × Nat) :=
  match alookup id cc with
  | some n => aupdate id (n + 1) cc
  | none => cc ++ [(id, 1)]

/-- Decrement branch of `Moving2DWindow::dec_at`: a missing id is skipped
    (the source prints and continues), a count of 1 removes the entry. -/
def countsDec (cc : List (EntityId × Nat)) (id : EntityId) :
    List (EntityId × Nat) :=
  match alookup id cc with
  | none => cc
  | some n => if n = 1 then aerase id cc else aupdate id (n - 1) cc

/-- `Moving2DWindow` (the source, a `&BpModel`, is passed to each
    operation instead of being stored). -/
structure Moving2DWindow where
  top_left : TilePos
  size : ℤ
  current_counts : List (EntityId × Nat)
deriving DecidableEq, Repr

/-- `Moving2DWindow::cur_items`: keys with positive count. -/
def Moving2DWindow.curItems (w : Moving2DWindow) : List EntityId :=
  w.current_counts.map Prod.fst

/-- `Moving2DWindow::inc_at`. -/
def Moving2DWindow.incAt (w : Moving2DWindow) (m : BpModel) (pos : TilePos) :
    Moving2DWindow :=
  { w with current_counts := (windowIdsAt m pos).foldl countsInc w.current_counts }

/-- `Moving2DWindow::dec_at`. -/
def Moving2DWindow.decAt (w : Moving2DWindow) (m : BpModel) (pos : TilePos) :
    Moving2DWindow :=
  { w with current_counts := (windowIdsAt m pos).foldl countsDec w.current_counts }

/-- `Moving2DWindow::move_inc_x`. -/
def Moving2DWindow.moveIncX (w : Moving2DWindow) (m : BpModel) : Moving2DWindow :=
  let w' := (intRange 0 w.size).foldl
    (fun w2 y =>
      (w2.incAt m ⟨w.top_left.x + w.size, w.top_left.y + y⟩).decAt m
        ⟨w.top_left.x, w.top_left.y + y⟩)
    w
  { w' with top_left := ⟨w.top_left.x + 1, w.top_left.y⟩ }

/-- `Moving2DWindow::move_inc_y`. -/
def Moving2DWindow.moveIncY (w : Moving2DWindow) (m : BpModel) : Moving2DWindow :=
  let w' := (intRange 0 w.size).foldl
    (fun w2 x =>
      (w2.incAt m ⟨w.top_left.x + x, w.top_left.y + w.size⟩).decAt m
        ⟨w.top_left.x + x, w.top_left.y⟩)
    w
  { w' with top_left := ⟨w.top_left.x, w.top_left.y + 1⟩ }

/-- `Moving2DWindow::move_dec_x` (decrements `top_left.x` first). -/
def Moving2DWindow.moveDecX (w : Moving2DWindow) (m : BpModel) : Moving2DWindow :=
  let tl : TilePos := ⟨w.top_left.x - 1, w.top_left.y⟩
  let w' := (intRange 0 w.size).foldl
    (fun w2 y =>
      (w2.incAt m ⟨tl.x, tl.y + y⟩).decAt m ⟨tl.x + w.size, tl.y + y⟩)
    w
  { w' with top_left := tl }

/-- `Moving2DWindow::move_dec_y` (decrements `top_left.y` first). -/
def Moving2DWindow.moveDecY (w : Moving2DWindow) (m : BpModel) : Moving2DWindow :=
  let tl : TilePos := ⟨w.top_left.x, w.top_left.y - 1⟩
  let w' := (intRange 0 w.size).foldl
    (fun w2 x =>
      (w2.incAt m ⟨tl.x + x, tl.y⟩).decAt m ⟨tl.x + x, tl.y + w.size⟩)
    w
  { w' with top_left := tl }

/-- Apply `f` `n` times. -/
def iterateOp (f : α → α) : Nat → α → α
  | 0, a => a
  | n + 1, a => iterateOp f n (f a)

/-- `Moving2DWindow::move_rel`. -/
def Moving2DWindow.moveRel (w : Moving2DWindow) (m : BpModel)
    (dx dy : ℤ) : Moving2DWindow :=
  let w1 :=
    if 0 < dx then iterateOp (fun w2 => Moving2DWindow.moveIncX w2 m) dx.toNat w
    else iterateOp (fun w2 => Moving2DWindow.moveDecX w2 m) (-dx).toNat w
  if 0 < dy then iterateOp (fun w2 => Moving2DWindow.moveIncY w2 m) dy.toNat w1
  else iterateOp (fun w2 => Moving2DWindow.moveDecY w2 m) (-dy).toNat w1

/-- `Moving2DWindow::jump_to`: clear the counts, re-scan `size²` tiles
    (x outer loop). -/
def Moving2DWindow.jumpTo (w : Moving2DWindow) (m : BpModel)
    (new_top_left : TilePos) : Moving2DWindow :=
  (intRange 0 w.size).foldl
    (fun w2 x =>
      (intRange 0 w.size).foldl
        (fun w3 y => w3.incAt m ⟨new_top_left.x + x, new_top_left.y + y⟩) w2)
    { w with top_left := new_top_left, current_counts := [] }

/-- `Moving2DWindow::move_to`: jump when `size² < 2·size·(|Δx|+|Δy|)`,
    otherwise shift incrementally. -/
def Moving2DWindow.moveTo (w : Moving2DWindow) (m : BpModel)
    (new_top_left : TilePos) : Moving2DWindow :=
  if w.top_left = new_top_left then w
  else
    let dx := (new_top_left.x - w.top_left.x).natAbs
    let dy := (new_top_left.y - w.top_left.y).natAbs
    let work_jump := w.size * w.size
    let work_move := 2 * ((dx : ℤ) * w.size + (dy : ℤ) * w.size)
    if work_jump < work_move then w.jumpTo m new_top_left
    else w.moveRel m (new_top_left.x - w.top_left.x) (new_top_left.y - w.top_left.y)

/-- `Moving2DWindow::new`: fields set, then `jump_to(top_left)`. -/
def Moving2DWindow.mk0 (m : BpModel) (top_left : TilePos) (size : ℤ) :
    Moving2DWindow :=
  Moving2DWindow.jumpTo ⟨top_left, size, []⟩ m top_left

/-- `PoleWindows`: per-prototype window cache.  The source keys the
    `HashMap` by `RcId` pointer identity; the embedding keys it by the
    prototype record (see `EntityPrototype.ptr`). -/
structure PoleWindows where
  windows_by_proto : List (EntityPrototype × Moving2DWindow)
deriving Repr

/-- Insert or replace a cache entry. -/
def aupsert [DecidableEq α] (k : α) (v : β) (l : List (α × β)) : List (α × β) :=
  if (alookup k l).isSome then aupdate k v l else l ++ [(k, v)]

/-- `PoleWindows::get_window_top_left`. -/
def getWindowTopLeft (radius : Q) (pos : MapPos) : TilePos :=
  MapPos.tilePos ⟨pos.x - radius, pos.y - radius⟩

/-- `PoleWindows::get_window_size`. -/
def getWindowSize (proto : EntityPrototype) (radius : Q) : ℤ :=
  let rep_center : MapPos :=
    ⟨((proto.tile_width % 2 : Nat) : Q) / 2, ((proto.tile_height % 2 : Nat) : Q) / 2⟩
  let top_left := getWindowTopLeft radius rep_center
  let bottom_right := MapPos.tilePos ⟨rep_center.x + radius, rep_center.y + radius⟩
  max (bottom_right.x - top_left.x) (bottom_right.y - top_left.y) + 1

/-- `PoleWindows::get_window_for`.  The source `unwrap`s the prototype's
    `pole_data`; all call sites guard on pole-ness first, so the `getD`
    fallback is never taken there. -/
def PoleWindows.getWindowFor (pw : PoleWindows) (getRadius : PoleData → Q)
    (m : BpModel) (pole : WorldEntity) : Moving2DWindow × PoleWindows :=
  let pd := pole.prototype.pole_data.getD ⟨0, 0⟩
  let radius := getRadius pd
  let top_left := getWindowTopLeft radius pole.position
  let window :=
    match alookup pole.prototype pw.windows_by_proto with
    | some w => w
    | none => Moving2DWindow.mk0 m top_left (getWindowSize pole.prototype radius)
  let window := window.moveTo m top_left
  (window, ⟨aupsert pole.prototype window pw.windows_by_proto⟩)

/-- `WireReach::get_radius`. -/
def wireReachRadius (pd : PoleData) : Q := pd.wire_distance

/-- `PoleCoverage::get_radius`. -/
def poleCoverageRadius (pd : PoleData) : Q := pd.supply_radius

/-! ### Undirected graphs: petgraph `UnGraph` as node list + edge list. -/

/-- `UnGraph<N, f64>`: nodes are indices `0..nodes.length`; each edge keeps
    the orientation it was inserted with.  Weights live in `Q`: where the
    source stores a Euclidean distance the embedding stores its square
    (squaring is injective on nonnegative reals, so all edge-set statements
    below are unaffected). -/
structure Graph (N : Type) where
  nodes : List N
  edges : List (Nat × Nat × Q)
deriving DecidableEq, Repr

def Graph.addNode (g : Graph N) (n : N) : Graph N :=
  { g with nodes := g.nodes ++ [n] }

def Graph.addEdge (g : Graph N) (a b : Nat) (w : Q) : Graph N :=
  { g with edges := g.edges ++ [(a, b, w)] }

/-- Does this stored edge join `a` and `b` (either orientation)? -/
def edgeJoins (e : Nat × Nat × Q) (a b : Nat) : Bool :=
  (e.1 = a && e.2.1 = b) || (e.1 = b && e.2.1 = a)

/-- `Graph::contains_edge`. -/
def Graph.containsEdge (g : Graph N) (a b : Nat) : Bool :=
  g.edges.any (fun e => edgeJoins e a b)

/-- `Graph::update_edge`: replace the weight of the (first) edge joining
    the pair, keeping its stored orientation; append if absent. -/
def updateEdgeList (a b : Nat) (w : Q) :
    List (Nat × Nat × Q) → List (Nat × Nat × Q)
  | [] => [(a, b, w)]
  | e :: rest =>
    if edgeJoins e a b then (e.1, e.2.1, w) :: rest
    else e :: updateEdgeList a b w rest

def Graph.updateEdge (g : Graph N) (a b : Nat) (w : Q) : Graph N :=
  { g with edges := updateEdgeList a b w g.edges }

/-- `Graph::neighbors` (list, one entry per incident edge). -/
def Graph.neighbors (g : Graph N) (a : Nat) : List Nat :=
  g.edges.filterMap (fun e =>
    if e.1 = a then some e.2.1 else if e.2.1 = a then some e.1 else none)

/-- `graph.neighbors(a).count()`. -/
def Graph.degree (g : Graph N) (a : Nat) : Nat :=
  (g.neighbors a).length

/-! ### Pole graph construction: pole_graph.rs -/

/-- `BpModel::get_disconnected_pole_graph`: one node per pole entity, plus
    the id → node-index map.  The source iterates `all_entities.values()`
    in hash order; the embedding iterates in insertion order (only the
    node numbering depends on it). -/
def BpModel.getDisconnectedPoleGraph (m : BpModel) :
    Graph WorldEntity × List (EntityId × Nat) :=
  m.all_entities.foldl
    (fun (acc : Graph WorldEntity × List (EntityId × Nat)) ie =>
      let (g, idm) := acc
      match ie.2.poleData with
      | none => (g, idm)
      | some _ => (g.addNode ie.2.entity, idm ++ [(ie.1, g.nodes.length)]))
    (⟨[], []⟩, [])

/-- One window item of `BpModel::maximally_connect_poles`: for an item with
    a larger id that passes `is_connectable_pole`, upsert an edge.  The
    source's `entity_map[&id]` indexing and `get(other_id).unwrap()` are
    total in the pipeline below; the embedding uses `getD 0` / a skip. -/
def mcpInner (m : BpModel) (e : ModelEntity) (pd : PoleData)
    (entityMap : List (EntityId × Nat)) (g : Graph N) (other_id : EntityId) :
    Graph N :=
  if other_id ≤ e.id then g
  else
    match m.get other_id with
    | none => g
    | some other =>
      if BpModel.isConnectablePole e.entity.position pd other.entity then
        g.updateEdge ((alookup e.id entityMap).getD 0)
          ((alookup other_id entityMap).getD 0)
          (e.entity.position.sqDist other.entity.position)
      else g

/-- One grid-order entity of `BpModel::maximally_connect_poles`: skip
    non-poles, slide the per-prototype wire-reach window, fold the window
    items. -/
def mcpOuter (m : BpModel) (entityMap : List (EntityId × Nat))
    (acc : Graph N × PoleWindows) (e : ModelEntity) : Graph N × PoleWindows :=
  match e.poleData with
  | none => acc
  | some (pd, _) =>
    let wp := acc.2.getWindowFor wireReachRadius m e.entity
    (wp.1.curItems.foldl (mcpInner m e pd entityMap) acc.1, wp.2)

/-- `BpModel::maximally_connect_poles`: iterate poles in grid order,
    sliding a wire-reach window per prototype; for each window item with a
    larger id that passes `is_connectable_pole`, upsert an edge. -/
def BpModel.maximallyConnectPoles (m : BpModel) (g : Graph N)
    (entityMap : List (EntityId × Nat)) : Graph N :=
  (m.allEntitiesGridOrder.foldl (mcpOuter m entityMap) (g, ⟨[]⟩)).1

/-- `BpModel::get_maximally_connected_pole_graph`. -/
def BpModel.getMaximallyConnectedPoleGraph (m : BpModel) :
    Graph WorldEntity × List (EntityId × Nat) :=
  let (g, idm) := m.getDisconnectedPoleGraph
  (m.maximallyConnectPoles g idm, idm)

/-- `CandPoleNode`. -/
structure CandPoleNode where
  entity : WorldEntity
  powered_entities : List EntityId
deriving DecidableEq, Repr

/-- `BpModel::to_cand_pole_graph`: annotate each node with the ids in its
    supply-coverage window that consume power.  Note: the window contains
    every entity whose footprint meets the square window, with no
    Euclidean-distance filter. -/
def BpModel.toCandPoleGraph (m : BpModel) (g : Graph WorldEntity) :
    Graph CandPoleNode :=
  let nodes :=
    (g.nodes.foldl
      (fun (acc : List CandPoleNode × PoleWindows) node =>
        let (ns, windows) := acc
        let (window, windows) := windows.getWindowFor poleCoverageRadius m node
        (ns ++ [⟨node,
          window.curItems.filter (fun id =>
            match m.get id with
            | some e => e.entity.usesPower
            | none => false)⟩], windows))
      ([], ⟨[]⟩)).1
  ⟨nodes, g.edges⟩

/-- `BpModel::with_all_candidate_poles`: for each prototype, for each tile
    in the area contracted by `width - 1`, add the candidate pole to the
    clone iff it can be placed in the ORIGINAL model (`self.can_place`).
    The source asserts square prototypes; theorems below hypothesize
    `tile_width = tile_height` and `1 ≤ tile_width` (otherwise the source
    panics or underflows). -/
def candTileStep (m : BpModel) (proto : EntityPrototype)
    (pole_model : BpModel) (top_left : TilePos) : BpModel :=
  let pos : MapPos :=
    ⟨(top_left.x : Q) + (proto.tile_width : Q) / 2,
     (top_left.y : Q) + (proto.tile_width : Q) / 2⟩
  let entity : WorldEntity := ⟨proto, pos, 0⟩
  if m.canPlace entity then (pole_model.addOverlap entity).2 else pole_model

def BpModel.withAllCandidatePoles (m : BpModel) (area : TileBox)
    (protos : List EntityPrototype) : BpModel :=
  protos.foldl
    (fun pole_model proto =>
      let width := proto.tile_width
      let possible_area := area.contractMax ((width : ℤ) - 1)
      possible_area.iterTiles.foldl (candTileStep m proto) pole_model)
    m

/-! ### Set-cover ILP: pole_solver/mod.rs, set_cover_ilp.rs -/

/-- `get_pole_coverage_dict`: entity id → set of covering node indices. -/
def getPoleCoverageDict (g : Graph CandPoleNode) : List (EntityId × List Nat) :=
  (List.range g.nodes.length).foldl
    (fun dict idx =>
      match g.nodes.get? idx with
      | none => dict
      | some node =>
        node.powered_entities.foldl
          (fun dict eid =>
            match alookup eid dict with
            | some idxs => aupdate eid (listInsert idx idxs) dict
            | none => dict ++ [(eid, [idx])])
          dict)
    []

/-- `SetCoverILPSolver::add_set_cover_constraints`: one `Σ x_i ≥ 1` per
    covered consumer. -/
def setCoverConstraints (g : Graph CandPoleNode) : List (List Nat) :=
  (getPoleCoverageDict g).map Prod.snd

/-- Value of `Σ_{i ∈ poles} x_i` for a 0/1 assignment. -/
def constraintSum (x : Nat → Bool) (poles : List Nat) : ℤ :=
  (poles.map (fun i => if x i then (1 : ℤ) else 0)).sum

/-- The assignment satisfies every generated coverage constraint. -/
def satisfiesCoverage (g : Graph CandPoleNode) (x : Nat → Bool) : Prop :=
  ∀ c ∈ setCoverConstraints g, 1 ≤ constraintSum x c

instance (g : Graph CandPoleNode) (x : Nat → Bool) :
    Decidable (satisfiesCoverage g x) := by
  unfold satisfiesCoverage; infer_instance

/-! ### Pole connectors: pole_solver/connections.rs -/

/-- petgraph `UnionFind<usize>` over `node_bound` elements.  The source
    unions by rank; which root becomes the parent is observationally
    irrelevant (only `equiv` is consumed), so the embedding links the
    first root under the second. -/
structure UnionFind where
  parent : List Nat
deriving DecidableEq, Repr

def UnionFind.mk0 (n : Nat) : UnionFind :=
  ⟨List.range n⟩

/-- Walk parent links: fuelled by the number of elements, which bounds
    every acyclic root-to-root chain. -/
def UnionFind.findRoot (uf : UnionFind) : Nat → Nat → Nat
  | 0, i => i
  | fuel + 1, i =>
    let p := (uf.parent.get? i).getD i
    if p = i then i else uf.findRoot fuel p

def UnionFind.find (uf : UnionFind) (i : Nat) : Nat :=
  uf.findRoot uf.parent.length i

/-- `UnionFind::equiv`. -/
def UnionFind.equiv (uf : UnionFind) (a b : Nat) : Bool :=
  uf.find a = uf.find b

/-- `UnionFind::union`: returns `false` iff already equivalent. -/
def UnionFind.union (uf : UnionFind) (a b : Nat) : UnionFind × Bool :=
  let ra := uf.find a
  let rb := uf.find b
  if ra = rb then (uf, false)
  else (⟨uf.parent.set ra rb⟩, true)

def MAX_DEGREE : Nat := 5

/-- `DEGREE_MULT`. -/
def DEGREE_MULT : List Q := [1, 1, 1, 3/2, 5]

/-- Modelled from the spec: the source declares `mod min_scored` but
    `min_scored.rs` is not under src/.  Spec §4.6: edges sit in a min-heap
    keyed by the current effective weight and are popped in ascending key
    order ("Push all edges into a min-heap keyed by current effective
    weight.  Pop edges ...").  `heapPopMin` removes a minimal-key entry;
    among equal keys it takes the first in list order (the tie order is
    not fixed by the spec). -/
def heapPopMin :
    List (Q × Q × Nat × Nat) →
      Option ((Q × Q × Nat × Nat) × List (Q × Q × Nat × Nat))
  | [] => none
  | e :: rest =>
    match heapPopMin rest with
    | none => some (e, [])
    | some (e', rest') =>
      if e.1 ≤ e'.1 then some (e, rest) else some (e', e :: rest')

/-- The loop of `WeightedMSTConnector::connect_poles`.  Entries are
    `(key, orig_weight, source, target)`.  The Rust loop terminates only
    because repeated `×1.5` / `×5` lazy re-pushes saturate `f64`; the
    embedding is fuelled instead.  Every theorem below either holds for
    every fuel or evaluates an instance whose loop drains the heap without
    any re-push. -/
def mstLoop (N : Type) : Nat → UnionFind → List (Q × Q × Nat × Nat) →
    Graph N → Graph N
  | 0, _, _, result => result
  | fuel + 1, uf, heap, result =>
    match heapPopMin heap with
    | none => result
    | some ((key, orig, s, t), rest) =>
      if uf.equiv s t then mstLoop N fuel uf rest result
      else
        let max_deg := max (result.degree s) (result.degree t)
        if MAX_DEGREE ≤ max_deg then mstLoop N fuel uf rest result
        else
          let actual := key * DEGREE_MULT.getD max_deg 1
          if key < actual then
            mstLoop N fuel uf ((actual, orig, s, t) :: rest) result
          else
            let ur := uf.union s t
            if ur.2 then mstLoop N fuel ur.1 rest (result.addEdge s t orig)
            else mstLoop N fuel ur.1 rest result

def mstFuel (g : Graph N) : Nat := (g.edges.length + 1) * 64

/-- `WeightedMSTConnector::connect_poles`: copy the nodes (indices are
    preserved, as the source asserts), push every edge with its raw weight
    as initial key, run the degree-penalized Kruskal loop. -/
def weightedMSTConnectPoles (g : Graph N) : Graph N :=
  let result : Graph N := ⟨g.nodes, []⟩
  let heap := g.edges.map (fun e => (e.2.2, e.2.2, e.1, e.2.1))
  mstLoop N (mstFuel g) (UnionFind.mk0 g.nodes.length) heap result

/-! #### Exact angle tests.

The source compares `f64` signed angles produced by
`euclid::Vector2D::angle_to`, i.e. `atan2(cross(u, v), dot(u, v))`, against
the default thresholds `min_angle = 30°` and `min_adjacent_angle = 100°` of
`PrettyPoleConnector::default`.  The embedding represents each angle by the
exact pair `(c, d) = (cross u v, dot u v) ∈ Q²` and decides the same
real-arithmetic comparisons by rational sign tests, using
`c² + d² = ‖u‖²·‖v‖²` (Lagrange), `cos(atan2 c d) = d / √(c²+d²)`,
`sin(atan2 c d) = c / √(c²+d²)`, strict monotonicity of `cos` on `[0, π]`,
and, for the 100° threshold, the cubic `8x³ − 6x + 1` whose root in
`(0, 1/2)` is `sin 10° = −cos 100°` (from `sin 30° = 3 sin 10° − 4 sin³10°`);
that cubic is strictly decreasing on `[0, 1/2]`.  No rational input sits
exactly on a threshold the cubic decides (`sin 10°` has degree 3 over `Q`,
while a cosine of an angle between rational vectors has degree at most 2),
and the tests below evaluate these predicates only at comfortable margins,
where `f64` rounding in the source cannot flip the comparison. -/

def vsub (a b : MapPos) : Q × Q := (a.x - b.x, a.y - b.y)

def cross2 (u v : Q × Q) : Q := u.1 * v.2 - u.2 * v.1

def dot2 (u v : Q × Q) : Q := u.1 * v.1 + u.2 * v.2

/-- `is_left`: `cross(a − base, b − base).is_positive()`. -/
def isLeft (base a b : MapPos) : Bool :=
  decide (0 < cross2 (vsub a base) (vsub b base))

/-- `orientation`. -/
def orient3 (a b c : MapPos) : Q :=
  cross2 (vsub b a) (vsub c a)

/-- `line_seg_intersects`: the orientation-sign test. -/
def lineSegIntersects (a b c d : MapPos) : Bool :=
  decide ((orient3 a b c).signQ ≠ (orient3 a b d).signQ) &&
  decide ((orient3 c d a).signQ ≠ (orient3 c d b).signQ)

/-- `|atan2 c d| < 30°` ⟺ `cos > √3/2` ⟺ `d > 0 ∧ 3c² < d²`, plus the
    degenerate zero-vector case where `atan2 0 0 = 0 < 30°`. -/
def angleAbsLt30 (cd : Q × Q) : Bool :=
  (decide (0 < cd.2) && decide (3 * cd.1.sq < cd.2.sq)) ||
  (cd.1.isZeroQ && cd.2.isZeroQ)

/-- Decides `a·√x < b·√y` for `x, y ≥ 0` by sign analysis and squaring. -/
def sqrtMulLt (a x b y : Q) : Bool :=
  let sl : ℤ := if x.isZeroQ then 0 else a.signQ
  let sr : ℤ := if y.isZeroQ then 0 else b.signQ
  if sl < sr then true
  else if sr < sl then false
  else if sl = 1 then decide (a.sq * x < b.sq * y)
  else if sl = -1 then decide (b.sq * y < a.sq * x)
  else false

/-- Decides `cos (atan2 c₁ d₁) < cos (atan2 c₂ d₂)`:
    `d₁/√(c₁²+d₁²) < d₂/√(c₂²+d₂²)`. -/
def cosLtCos (p q : Q × Q) : Bool :=
  sqrtMulLt p.2 (q.1.sq + q.2.sq) q.2 (p.1.sq + p.2.sq)

/-- Pick an element with maximal cosine (any maximizer has the same angle
    value, since `cos` is injective on each side of the partition; Rust's
    `max_by`/`min_by` pick among ties by position, which therefore does not
    matter). -/
def maxByCos : List (Q × Q) → Option (Q × Q)
  | [] => none
  | p :: rest =>
    match maxByCos rest with
    | none => some p
    | some q => if cosLtCos p q then some q else some p

/-- Decides `θ⁺ − θ⁻ < 100°` for a positive-side angle `θ⁺ = atan2 cp dp ∈
    [0, π]` (`cp ≥ 0`) and a negative-side angle `θ⁻ = atan2 cn dn ∈ (−π, 0)`
    (`cn < 0`).  With `S = θ⁺ + |θ⁻|`: if `S > π` (⟺ `cos θ⁺ < −cos |θ⁻|`)
    the answer is no; otherwise `S < 100°` ⟺ `cos S > cos 100° = −sin 10°`,
    where `cos S = (dp·dn + cp·cn)/√(np·nn)`; for negative numerator this
    reduces, via the cubic `8x³ − 6x + 1` of `sin 10°`, to
    `t < 1/4 ∧ t(6 − 8t)² < 1` with `t = A²/(np·nn)`. -/
def adjacentLt100 (pp pn : Q × Q) : Bool :=
  let cp := pp.1
  let dp := pp.2
  let cn := pn.1
  let dn := pn.2
  let np := cp.sq + dp.sq
  let nn := cn.sq + dn.sq
  if sqrtMulLt dp nn (-dn) np then false
  else if 0 ≤ A then true
  else
    let t := A.sq / (np * nn)
    decide (t < 1/4) && decide (t * (6 - 8 * t).sq < 1)
where
  A : Q := pp.2 * pn.2 + pp.1 * pn.1

/-- Keep the first occurrence of each element (`Itertools::unique`). -/
def dedupFirst [DecidableEq α] : List α → List α :=
  go []
where
  go (seen : List α) : List α → List α
    | [] => []
    | x :: rest => if x ∈ seen then go seen rest else x :: go (x :: seen) rest

/-- Position of a node index (`cand_graph[idx].position()`; the source
    would panic on an out-of-range index, which no use below produces). -/
def nodePos (g : Graph N) (pos : N → MapPos) (i : Nat) : MapPos :=
  match g.nodes.get? i with
  | some n => pos n
  | none => ⟨0, 0⟩

/-- The per-endpoint angle checks of `PrettyPoleConnector::can_connect`:
    reject when some existing edge at `p` is within 30° of the new edge, or
    when the nearest positive and nearest negative existing angles leave a
    gap below 100°. -/
def angleOkAt (cand res : Graph N) (pos : N → MapPos) (p : Nat)
    (pPos : MapPos) (ab : Q × Q) : Bool :=
  let pairs := (res.neighbors p).map (fun n =>
    let ac := vsub (nodePos cand pos n) pPos
    (cross2 ab ac, dot2 ab ac))
  if pairs.any angleAbsLt30 then false
  else
    let part := pairs.partition (fun cd => cd.1 < 0)
    match maxByCos part.2, maxByCos part.1 with
    | some ppos, some pneg => !(adjacentLt100 ppos pneg)
    | _, _ => true

/-- `PrettyPoleConnector::can_connect` with the default angle thresholds
    (30°, 100°): no duplicate edge, both degrees below `MAX_DEGREE`, no
    crossing against result edges between candidate neighbors of the
    endpoints, and angular clearance at both endpoints. -/
def canConnect (cand res : Graph N) (pos : N → MapPos) (a b : Nat) : Bool :=
  if res.containsEdge a b then false
  else if MAX_DEGREE ≤ res.degree a || MAX_DEGREE ≤ res.degree b then false
  else
    let posA := nodePos cand pos a
    let posB := nodePos cand pos b
    let nbrs := (dedupFirst (cand.neighbors a ++ cand.neighbors b)).filter
      (fun i => i ≠ a && i ≠ b)
    let part := nbrs.partition (fun i => isLeft posA posB (nodePos cand pos i))
    if part.1.any (fun l => part.2.any (fun r =>
        res.containsEdge l r &&
        lineSegIntersects posA posB (nodePos cand pos l) (nodePos cand pos r)))
    then false
    else
      angleOkAt cand res pos a posA (vsub posB posA) &&
      angleOkAt cand res pos b posB (vsub posA posB)

/-- `PrettyPoleConnector::edge_weight`: reward near-axis-aligned edges.
    On the unit vector of the edge, `(|x̂| − |ŷ|)² = (|dx| − |dy|)²/len²`.
    A zero-length edge yields `NaN` and a sort panic in the source; in `Q`
    the division gives 0 (no theorem below evaluates that case). -/
def edgeWeightPretty (orig : Q) (src tgt : MapPos) : Q :=
  let dx := tgt.x - src.x
  let dy := tgt.y - src.y
  let axis_alignment := (dx.absQ - dy.absQ).sq / (dx.sq + dy.sq)
  orig / (1 + 2 * axis_alignment)

/-- `PrettyPoleConnector::connect_poles` (default thresholds): run the
    weighted MST, then greedily add the remaining edges of the candidate
    graph in ascending pretty-weight order when `can_connect` allows. -/
def prettyConnectPoles (pos : N → MapPos) (g : Graph N) : Graph N :=
  let result := weightedMSTConnectPoles g
  let edges := g.edges.map (fun e =>
    (edgeWeightPretty e.2.2 (nodePos g pos e.1) (nodePos g pos e.2.1),
     e.2.2, e.1, e.2.1))
  let sorted := sortStable (fun a b => a.1 ≤ b.1) edges
  sorted.foldl
    (fun result e =>
      if canConnect g result pos e.2.2.1 e.2.2.2 then
        result.updateEdge e.2.2.1 e.2.2.2 e.2.1
      else result)
    result

/-! ### Well-formedness predicates for models. -/

/-- Cable-neighbor ids of a model entity. -/
def ModelEntity.connIds (me : ModelEntity) : List EntityId :=
  match me.extra with
  | .pole c => c.connections
  | .noExtra => []

/-- The invariant the tile-bucket index maintains: distinct entity keys,
    distinct bucket keys, the stored `id` field matches the key, every
    world-bbox tile of an entity holds its id, every bucket is nonempty and
    every id it holds belongs to an entity whose world bbox covers the
    bucket's tile. -/
def BpModel.wfB (m : BpModel) : Bool :=
  decide (m.all_entities.map Prod.fst).Nodup &&
  decide (m.by_tile.map Prod.fst).Nodup &&
  m.all_entities.all (fun p =>
    p.2.id = p.1 &&
    p.2.entity.worldBbox.iterTiles.all
      (fun t => p.1 ∈ (alookup t m.by_tile).getD [])) &&
  m.by_tile.all (fun p =>
    !p.2.isEmpty &&
    p.2.all (fun id =>
      match alookup id m.all_entities with
      | some me => decide (p.1 ∈ me.entity.worldBbox.iterTiles)
      | none => false))

/-- Coherence of the entity table alone: the stored id matches the key and
    the extra data matches the prototype (exactly what
    `ModelEntity::new_empty` establishes). -/
def ModelCoherentB (m : BpModel) : Bool :=
  m.all_entities.all (fun p =>
    p.2.id = p.1 &&
    (match p.2.extra with
     | .pole _ => p.2.entity.prototype.pole_data.isSome
     | .noExtra => p.2.entity.prototype.pole_data.isNone))

/-- The literal reading of the claim: every listed cable neighbor is
    present in the model and lists back. -/
def BpModel.cableSymPresentB (m : BpModel) : Bool :=
  m.all_entities.all (fun p =>
    p.2.connIds.all (fun a =>
      match alookup a m.all_entities with
      | some ae => p.1 ∈ ae.connIds
      | none => false))

/-- Symmetry among the entities still present: if `b` lists `a` and `a` is
    in the model, then `a` lists `b`. -/
def CableSym (m : BpModel) : Prop :=
  ∀ p ∈ m.all_entities, ∀ a ∈ p.2.connIds,
    ∀ ae, alookup a m.all_entities = some ae → p.1 ∈ ae.connIds

instance (m : BpModel) : Decidable (CableSym m) := by
  unfold CableSym; infer_instance

/-- Invariant carried through operation sequences for the cable-symmetry
    claim: ids (keys and listed neighbors) are below `next_id`, keys are
    distinct, and symmetry-among-present holds. -/
def CableInv (m : BpModel) : Prop :=
  (∀ p ∈ m.all_entities, p.1 < m.next_id) ∧
  (∀ p ∈ m.all_entities, ∀ a ∈ p.2.connIds, a < m.next_id) ∧
  (m.all_entities.map Prod.fst).Nodup ∧
  CableSym m

instance (m : BpModel) : Decidable (CableInv m) := by
  unfold CableInv; infer_instance

/-! ### Operation sequences on a model. -/

/-- The mutating model operations a claim quantifies over. -/
inductive ModelOp where
  | addOverlapOp (e : WorldEntity)
  | addNoOverlapOp (e : WorldEntity)
  | addCableOp (a b : EntityId)
  | removeOp (id : EntityId)

/-- One step.  `add_cable_connection` returning `None` is a no-op for the
    caller; `remove` of an absent id panics (`none`). -/
def applyOp (m : BpModel) : ModelOp → Option BpModel
  | .addOverlapOp e => some (m.addOverlap e).2
  | .addNoOverlapOp e =>
    some (match m.addNoOverlap e with
          | some r => r.2
          | none => m)
  | .addCableOp a b => some ((m.addCableConnection a b).getD m)
  | .removeOp id => m.removeQ id

def applyOps (m : BpModel) : List ModelOp → Option BpModel
  | [] => some m
  | op :: rest =>
    match applyOp m op with
    | some m' => applyOps m' rest
    | none => none

/-! ### Statement-level predicates. -/

/-- No two distinct edges of the graph properly cross
    (`line_seg_intersects`, the source's own orientation-sign test, which
    at the instances below coincides with proper segment crossing). -/
def noEdgeCrossB (pos : N → MapPos) (g : Graph N) : Bool :=
  g.edges.all (fun e1 => g.edges.all (fun e2 =>
    decide (e1 = e2) ||
    !(lineSegIntersects (nodePos g pos e1.1) (nodePos g pos e1.2.1)
        (nodePos g pos e2.1) (nodePos g pos e2.2.1))))

/-- Adjacency of node indices in a graph. -/
def Graph.adj (g : Graph N) (a b : Nat) : Prop :=
  g.containsEdge a b = true

/-- Joined by a path (reflexive-transitive closure of adjacency). -/
def Graph.joined (g : Graph N) (a b : Nat) : Prop :=
  Relation.ReflTransGen g.adj a b

/-- The edge `e` of a window-built maximally-connected pole graph is backed
    by a pair of poles of the model: two distinct present entities with
    `id(a) < id(b)`, the smaller-id one a pole whose `is_connectable_pole`
    test accepts the other, the stored weight the squared Euclidean
    distance, and the endpoints the `entity_map` indices of the two ids (in
    either orientation). -/
def edgeSourced (m : BpModel) (idm : List (EntityId × Nat))
    (e : Nat × Nat × Q) : Prop :=
  ∃ ida idb ea eb pda,
    ida < idb ∧
    alookup ida m.all_entities = some ea ∧
    alookup idb m.all_entities = some eb ∧
    ea.entity.prototype.pole_data = some pda ∧
    BpModel.isConnectablePole ea.entity.position pda eb.entity = true ∧
    e.2.2 = ea.entity.position.sqDist eb.entity.position ∧
    ((e.1 = (alookup ida idm).getD 0 ∧ e.2.1 = (alookup idb idm).getD 0) ∨
      (e.1 = (alookup idb idm).getD 0 ∧ e.2.1 = (alookup ida idm).getD 0))

/-! ### Concrete fixtures used by the counterexamples and witnesses. -/

/-- A 1×1 power-consuming prototype (the test `powerable_prototype`). -/
def protoPowerable : EntityPrototype :=
  ⟨1, 1, 1, ⟨-1/2, -1/2, 1/2, 1/2⟩, true, none⟩

/-- A 1×1 pole with supply radius 2.5 and wire distance 7.5 (the test
    `small_pole_prototype`). -/
def protoPole : EntityPrototype :=
  ⟨2, 1, 1, ⟨-1/2, -1/2, 1/2, 1/2⟩, false, some ⟨5/2, 15/2⟩⟩

/-- A pole prototype whose `collision_box` is the degenerate default box
    `[(0,0), (0,0)]` (the serde default used when a raw prototype carries no
    `collision_box`), same pole parameters. -/
def protoPolePoint : EntityPrototype :=
  ⟨3, 1, 1, ⟨0, 0, 0, 0⟩, false, some ⟨5/2, 15/2⟩⟩

/-- A second 1×1 pole prototype, a distinct record (distinct `ptr`). -/
def protoPoleB : EntityPrototype :=
  ⟨4, 1, 1, ⟨-1/2, -1/2, 1/2, 1/2⟩, false, some ⟨5/2, 15/2⟩⟩

/-- One consumer on tile (0,0) (entity id 1). -/
def mC2 : BpModel :=
  (BpModel.new.addOverlap ⟨protoPowerable, ⟨1/2, 1/2⟩, 0⟩).2

/-- The consumer plus one pole at (2.5, 2.5) (entity id 2). -/
def mC1 : BpModel :=
  (mC2.addOverlap ⟨protoPole, ⟨5/2, 5/2⟩, 0⟩).2

/-- The candidate pole graph the ILP would receive for `mC1`. -/
def gC1 : Graph CandPoleNode :=
  mC1.toCandPoleGraph (mC1.getMaximallyConnectedPoleGraph).1

/-- The all-ones assignment (every candidate pole selected). -/
def xAll : Nat → Bool := fun _ => true

/-- Pole A of `protoPole` at (0.5, 0.5) (id 1), then pole B of
    `protoPolePoint` at (−7 − 10⁻⁸, 0.5) (id 2).  Their distance is
    `7.5 + 10⁻⁸`, within the ε-tolerance of `is_connectable_pole`, but B's
    footprint occupies only tile (−8, 0), one column outside A's 16-tile
    wire-reach window starting at column −7. -/
def mC3 : BpModel :=
  ((BpModel.new.addOverlap ⟨protoPole, ⟨1/2, 1/2⟩, 0⟩).2.addOverlap
    ⟨protoPolePoint, ⟨-7 - 1/100000000, 1/2⟩, 0⟩).2

/-- Pole B of the `mC3` model. -/
def entC3B : WorldEntity :=
  ⟨protoPolePoint, ⟨-7 - 1/100000000, 1/2⟩, 0⟩

/-- Two poles of `protoPole` on tiles (0,0) and (4,1), in wire reach. -/
def mW3 : BpModel :=
  ((BpModel.new.addOverlap ⟨protoPole, ⟨1/2, 1/2⟩, 0⟩).2.addOverlap
    ⟨protoPole, ⟨9/2, 3/2⟩, 0⟩).2

/-- Four poles on the corners of a unit square; the only candidate wires
    are the two crossing diagonals (weights: squared distances). -/
def gC4 : Graph MapPos :=
  ⟨[⟨0, 0⟩, ⟨1, 1⟩, ⟨0, 1⟩, ⟨1, 0⟩], [(0, 1, 2), (2, 3, 2)]⟩

def hC4 : Graph MapPos := prettyConnectPoles id gC4

/-- A hub with six candidate wires.  The distinct negative weights make every heap
    pop unambiguous and commit immediately; after five commits the hub has
    degree `MAX_DEGREE` and the sixth edge is dropped by both stages. -/
def gC7 : Graph MapPos :=
  ⟨[⟨0, 0⟩, ⟨1, 0⟩, ⟨0, 2⟩, ⟨-3, 0⟩, ⟨0, -4⟩, ⟨5, 1⟩, ⟨1, 5⟩],
   [(0, 1, -6), (0, 2, -5), (0, 3, -4), (0, 4, -3), (0, 5, -2), (0, 6, -1)]⟩

def hC7 : Graph MapPos := prettyConnectPoles id gC7

/-- Add two poles in wire reach, connect them, remove the first. -/
def opsC5 : List ModelOp :=
  [.addOverlapOp ⟨protoPole, ⟨1/2, 1/2⟩, 0⟩,
   .addOverlapOp ⟨protoPole, ⟨9/2, 3/2⟩, 0⟩,
   .addCableOp 1 2,
   .removeOp 1]

def mC5 : BpModel := (applyOps BpModel.new opsC5).getD BpModel.new

/-- A short witness sequence for the amended symmetry claim. -/
def opsW5 : List ModelOp :=
  [.addOverlapOp ⟨protoPole, ⟨1/2, 1/2⟩, 0⟩,
   .addOverlapOp ⟨protoPole, ⟨9/2, 3/2⟩, 0⟩,
   .addCableOp 1 2]

def mW5 : BpModel := (applyOps BpModel.new opsW5).getD BpModel.new

/-- Candidate enumeration over a single tile with two distinct pole
    prototypes. -/
def mC6 : BpModel :=
  BpModel.new.withAllCandidatePoles ⟨0, 0, 1, 1⟩ [protoPole, protoPoleB]

/-- A single 1×1 entity on tile (0,0), id 1. -/
def mE10 : BpModel := mC2

/-- The pole entity a candidate enumeration would place for `proto` with its
    top-left corner on tile `t`. -/
def candEntity (proto : EntityPrototype) (t : TilePos) : WorldEntity :=
  ⟨proto,
   ⟨(t.x : Q) + (proto.tile_width : Q) / 2, (t.y : Q) + (proto.tile_width : Q) / 2⟩,
   0⟩

/-- The edge `x` comes from the graph `g`: some edge of `g` joins the same
    unordered pair with the same weight. -/
def edgeFrom (g : Graph N) (x : Nat × Nat × Q) : Prop :=
  ∃ e' ∈ g.edges, edgeJoins e' x.1 x.2.1 = true ∧ e'.2.2 = x.2.2

/-- The heap entry `(key, orig, s, t)` is backed by an edge of `g` joining
    `s` and `t` with weight `orig`. -/
def heapEntryFrom (g : Graph N) (h : Q × Q × Nat × Nat) : Prop :=
  ∃ e' ∈ g.edges, edgeJoins e' h.2.2.1 h.2.2.2 = true ∧ e'.2.2 = h.2.1

/-- An entity with its cable-connection set replaced (the shape of the two
    record updates inside `add_cable_connection`). -/
def withConn (me : ModelEntity) (l : List EntityId) : ModelEntity :=
  { me with extra := .pole ⟨l⟩ }

/-- A model with its entity table replaced (`by_tile` and `next_id` kept). -/
def modelWithEntities (m : BpModel) (ents : List (EntityId × ModelEntity)) :
    BpModel :=
  { m with all_entities := ents }

/-- A model with both the tile index and the entity table replaced
    (`next_id` kept): the shape `remove` produces. -/
def modelWithBoth (m : BpModel) (bt : List (TilePos × List EntityId))
    (ents : List (EntityId × ModelEntity)) : BpModel :=
  { m with by_tile := bt, all_entities := ents }

/-! ## Lemmas.  First, generic facts about the association-list helpers. -/

theorem alookup_cons [DecidableEq α] (k pk : α) (pv : β) (rest : List (α × β)) :
    alookup k ((pk, pv) :: rest) = if pk = k then some pv else alookup k rest := rfl

theorem alookup_mem [DecidableEq α] {k : α} {v : β} {l : List (α × β)}
    (h : alookup k l = some v) : (k, v) ∈ l := by
  induction l with
  | nil => simp [alookup] at h
  | cons p rest ih =>
    obtain ⟨pk, pv⟩ := p
    rw [alookup_cons] at h
    by_cases hk : pk = k
    · rw [if_pos hk] at h
      cases h
      subst hk
      exact List.mem_cons_self _ _
    · rw [if_neg hk] at h
      exact List.mem_cons_of_mem _ (ih h)

theorem alookup_append_of_ne [DecidableEq α] {k k' : α} (v' : β)
    (l : List (α × β)) (h : k' ≠ k) :
    alookup k (l ++ [(k', v')]) = alookup k l := by
  induction l with
  | nil => simp [alookup, h]
  | cons p rest ih =>
    obtain ⟨pk, pv⟩ := p
    rw [List.cons_append, alookup_cons, alookup_cons, ih]

theorem alookup_append_isSome [DecidableEq α] {k : α} {l l' : List (α × β)}
    (h : (alookup k l).isSome) : (alookup k (l ++ l')).isSome := by
  induction l with
  | nil => simp [alookup] at h
  | cons p rest ih =>
    obtain ⟨pk, pv⟩ := p
    rw [List.cons_append, alookup_cons]
    rw [alookup_cons] at h
    by_cases hk : pk = k
    · rw [if_pos hk]; simp
    · rw [if_neg hk] at h ⊢
      exact ih h

theorem alookup_append_self [DecidableEq α] (k : α) (v : β)
    (l : List (α × β)) : (alookup k (l ++ [(k, v)])).isSome := by
  induction l with
  | nil => simp [alookup]
  | cons p rest ih =>
    obtain ⟨pk, pv⟩ := p
    rw [List.cons_append, alookup_cons]
    by_cases hk : pk = k
    · rw [if_pos hk]; simp
    · rw [if_neg hk]
      exact ih

theorem aupdate_cons [DecidableEq α] (k pk : α) (v pv : β) (rest : List (α × β)) :
    aupdate k v ((pk, pv) :: rest) =
      if pk = k then (k, v) :: rest else (pk, pv) :: aupdate k v rest := rfl

theorem aupdate_map_fst [DecidableEq α] (k : α) (v : β) (l : List (α × β)) :
    (aupdate k v l).map Prod.fst = l.map Prod.fst := by
  induction l with
  | nil => rfl
  | cons p rest ih =>
    obtain ⟨pk, pv⟩ := p
    rw [aupdate_cons]
    by_cases hk : pk = k
    · rw [if_pos hk]
      simp [hk]
    · rw [if_neg hk]
      simp [ih]

theorem alookup_aupdate_ne [DecidableEq α] {k k' : α} (v : β)
    (l : List (α × β)) (h : k' ≠ k) :
    alookup k' (aupdate k v l) = alookup k' l := by
  induction l with
  | nil => rfl
  | cons p rest ih =>
    obtain ⟨pk, pv⟩ := p
    rw [aupdate_cons]
    by_cases hk : pk = k
    · subst hk
      rw [if_pos rfl, alookup_cons, alookup_cons,
        if_neg (fun hh => h hh.symm), if_neg (fun hh => h hh.symm)]
    · rw [if_neg hk, alookup_cons, alookup_cons, ih]

theorem alookup_aupdate_self [DecidableEq α] {k : α} (v : β)
    {l : List (α × β)} (h : (alookup k l).isSome) :
    alookup k (aupdate k v l) = some v := by
  induction l with
  | nil => simp [alookup] at h
  | cons p rest ih =>
    obtain ⟨pk, pv⟩ := p
    rw [alookup_cons] at h
    rw [aupdate_cons]
    by_cases hk : pk = k
    · rw [if_pos hk, alookup_cons, if_pos rfl]
    · rw [if_neg hk, alookup_cons, if_neg hk]
      rw [if_neg hk] at h
      exact ih h

theorem mem_aupdate [DecidableEq α] {p : α × β} {k : α} {v : β}
    {l : List (α × β)} (h : p ∈ aupdate k v l) : p = (k, v) ∨ p ∈ l := by
  induction l with
  | nil => simp [aupdate] at h
  | cons q rest ih =>
    obtain ⟨qk, qv⟩ := q
    rw [aupdate_cons] at h
    by_cases hk : qk = k
    · rw [if_pos hk] at h
      rcases List.mem_cons.1 h with h1 | h1
      · exact .inl h1
      · exact .inr (List.mem_cons_of_mem _ h1)
    · rw [if_neg hk] at h
      rcases List.mem_cons.1 h with h1 | h1
      · exact .inr (h1 ▸ List.mem_cons_self _ _)
      · rcases ih h1 with h2 | h2
        · exact .inl h2
        · exact .inr (List.mem_cons_of_mem _ h2)

theorem aerase_cons [DecidableEq α] (k pk : α) (pv : β) (rest : List (α × β)) :
    aerase k ((pk, pv) :: rest) =
      if pk = k then rest else (pk, pv) :: aerase k rest := rfl

theorem aerase_sublist [DecidableEq α] (k : α) (l : List (α × β)) :
    (aerase k l).Sublist l := by
  induction l with
  | nil => simp [aerase]
  | cons p rest ih =>
    obtain ⟨pk, pv⟩ := p
    rw [aerase_cons]
    by_cases hk : pk = k
    · rw [if_pos hk]
      exact List.sublist_cons_self _ rest
    · rw [if_neg hk]
      exact ih.cons₂ _

theorem mem_aerase [DecidableEq α] {p : α × β} {k : α} {l : List (α × β)}
    (h : p ∈ aerase k l) : p ∈ l :=
  (aerase_sublist k l).mem h

theorem alookup_aerase_ne [DecidableEq α] {k k' : α} (l : List (α × β))
    (h : k' ≠ k) : alookup k' (aerase k l) = alookup k' l := by
  induction l with
  | nil => rfl
  | cons p rest ih =>
    obtain ⟨pk, pv⟩ := p
    rw [aerase_cons]
    by_cases hk : pk = k
    · subst hk
      rw [if_pos rfl, alookup_cons, if_neg (fun hh => h hh.symm)]
    · rw [if_neg hk, alookup_cons, alookup_cons, ih]

theorem alookup_of_not_mem_fst [DecidableEq α] {k : α} {l : List (α × β)}
    (h : k ∉ l.map Prod.fst) : alookup k l = none := by
  induction l with
  | nil => rfl
  | cons p rest ih =>
    obtain ⟨pk, pv⟩ := p
    rw [alookup_cons]
    simp only [List.map_cons, List.mem_cons] at h
    push_neg at h
    rw [if_neg (fun hh => h.1 hh.symm)]
    exact ih h.2

theorem alookup_aerase_self [DecidableEq α] {k : α} {l : List (α × β)}
    (hnd : (l.map Prod.fst).Nodup) : alookup k (aerase k l) = none := by
  induction l with
  | nil => rfl
  | cons p rest ih =>
    obtain ⟨pk, pv⟩ := p
    simp only [List.map_cons, List.nodup_cons] at hnd
    rw [aerase_cons]
    by_cases hk : pk = k
    · rw [if_pos hk]
      subst hk
      exact alookup_of_not_mem_fst hnd.1
    · rw [if_neg hk, alookup_cons, if_neg hk]
      exact ih hnd.2

theorem mem_listInsert_iff [DecidableEq α] {a x : α} {l : List α} :
    a ∈ listInsert x l ↔ a = x ∨ a ∈ l := by
  unfold listInsert
  split
  · rename_i hmem
    constructor
    · exact fun h => .inr h
    · rintro (rfl | h)
      · exact hmem
      · exact h
  · simp [or_comm]

theorem dedupById_sub {l : List ModelEntity} {me : ModelEntity}
    (h : me ∈ dedupById l) : me ∈ l := by
  have main : ∀ (l : List ModelEntity) (seen : List EntityId) (me : ModelEntity),
      me ∈ dedupById.go seen l → me ∈ l := by
    intro l
    induction l with
    | nil => intro seen me h; simp [dedupById.go] at h
    | cons e rest ih =>
      intro seen me h
      unfold dedupById.go at h
      split at h
      · exact List.mem_cons_of_mem _ (ih _ _ h)
      · rcases List.mem_cons.1 h with h1 | h1
        · exact h1 ▸ List.mem_cons_self _ _
        · exact List.mem_cons_of_mem _ (ih _ _ h1)
  exact main l [] me h

theorem dedupById_go_mem :
    ∀ (l : List ModelEntity) (seen : List EntityId) (me : ModelEntity),
      (∀ a ∈ l, ∀ b ∈ l, a.id = b.id → a = b) →
      me ∈ l → me.id ∉ seen → me ∈ dedupById.go seen l := by
  intro l
  induction l with
  | nil => intro seen me _ h; simp at h
  | cons e rest ih =>
    intro seen me hfun hmem hseen
    unfold dedupById.go
    rcases List.mem_cons.1 hmem with rfl | hmem2
    · rw [if_neg hseen]
      exact List.mem_cons_self _ _
    · split
      · exact ih seen me
          (fun a ha b hb => hfun a (List.mem_cons_of_mem _ ha) b (List.mem_cons_of_mem _ hb))
          hmem2 hseen
      · by_cases hid : me.id = e.id
        · have : me = e :=
            hfun me hmem e (List.mem_cons_self _ _) hid
          exact this ▸ List.mem_cons_self _ _
        · refine List.mem_cons_of_mem _ (ih _ me
            (fun a ha b hb => hfun a (List.mem_cons_of_mem _ ha) b (List.mem_cons_of_mem _ hb))
            hmem2 ?_)
          intro hc
          rcases List.mem_cons.1 hc with h1 | h1
          · exact hid h1
          · exact hseen h1

theorem dedupById_mem_of_mem {l : List ModelEntity} {me : ModelEntity}
    (hid : ∀ a ∈ l, ∀ b ∈ l, a.id = b.id → a = b)
    (h : me ∈ l) : me ∈ dedupById l :=
  dedupById_go_mem l [] me hid h (by simp)

theorem dedupById_go_nodup :
    ∀ (l : List ModelEntity) (seen : List EntityId),
      ((dedupById.go seen l).map ModelEntity.id).Nodup ∧
      ∀ me ∈ dedupById.go seen l, me.id ∉ seen := by
  intro l
  induction l with
  | nil => intro seen; constructor <;> simp [dedupById.go]
  | cons e rest ih =>
    intro seen
    unfold dedupById.go
    split
    · exact ih seen
    · rename_i hseen
      obtain ⟨hnd, hnotin⟩ := ih (e.id :: seen)
      constructor
      · simp only [List.map_cons, List.nodup_cons]
        exact ⟨fun hc => by
          obtain ⟨me, hme, hmeid⟩ := List.mem_map.1 hc
          exact hnotin me hme (hmeid ▸ List.mem_cons_self _ _), hnd⟩
      · intro me hme
        rcases List.mem_cons.1 hme with rfl | h1
        · exact hseen
        · exact fun hc => hnotin me h1 (List.mem_cons_of_mem _ hc)

theorem dedupById_nodup (l : List ModelEntity) :
    ((dedupById l).map ModelEntity.id).Nodup :=
  (dedupById_go_nodup l []).1

end FBO

set_option maxRecDepth 40000

namespace FBO

/-! ## Claim C9: round_to_tiles_covering_center. -/

/-- C9 counterexample: the claim asserts that the box [0.5001, 3.4999] maps
    to the tile range [1, 4); the code rounds 3.4999 + 10⁻⁶ = 3.499901 to 3,
    so the range is [1, 3). -/
theorem claim9_counterexample :
    BBox.roundToTilesCoveringCenter
        ⟨5001/10000, 5001/10000, 34999/10000, 34999/10000⟩ ≠ ⟨1, 1, 4, 4⟩ := by
  decide

/-- C9 (amended): `round_to_tiles_covering_center` expands the box by
    ε = 10⁻⁶ on every side and rounds each coordinate to the nearest
    integer; per axis, [0.5, 3.5] maps to the tile range [0, 4) and
    [0.5001, 3.4999] maps to [1, 3). -/
theorem claim9_round_covering_center :
    BBox.roundToTilesCoveringCenter ⟨1/2, 1/2, 7/2, 7/2⟩ = ⟨0, 0, 4, 4⟩ ∧
    BBox.roundToTilesCoveringCenter
        ⟨5001/10000, 5001/10000, 34999/10000, 34999/10000⟩ = ⟨1, 1, 3, 3⟩ := by
  constructor
  · decide
  · decide

/-! ## Claim C2: powered_entities. -/

/-- C2 counterexample: the claim asserts `powered_entities(pos, pd)` yields
    only entities within Euclidean distance `pd.supply_radius` of `pos`.
    The code has no distance filter: with a consumer at (0.5, 0.5), the call
    at (2.5, 2.5) with supply radius 2.5 yields that consumer although its
    squared distance is 8 > 2.5² (the repository's own `powered_entities`
    test asserts this inclusion). -/
theorem claim2_counterexample :
    ∃ me ∈ mC2.poweredEntities ⟨5/2, 5/2⟩ ⟨5/2, 15/2⟩,
      (5/2 : Q) * (5/2) < MapPos.sqDist ⟨5/2, 5/2⟩ me.entity.position := by
  decide

/-! ## Claim C1: ILP coverage constraints. -/

/-- C1 counterexample: the claim asserts that every ILP-feasible selection
    leaves each covered consumer within the Euclidean supply radius of some
    selected pole.  In the model `mC1` (consumer id 1 at (0.5, 0.5), one
    candidate pole at (2.5, 2.5) with supply radius 2.5), the coverage
    dictionary maps consumer 1 to the sole pole node 0, the all-ones
    assignment is feasible, yet every node of the graph — in particular the
    selected pole — has squared distance 8 > 2.5² from the consumer. -/
theorem claim1_counterexample :
    satisfiesCoverage gC1 xAll ∧
    getPoleCoverageDict gC1 = [(1, [0])] ∧
    (∀ idx, xAll idx = true) ∧
    (∀ node ∈ gC1.nodes,
      (5/2 : Q) * (5/2) < MapPos.sqDist node.entity.position ⟨1/2, 1/2⟩) := by
  refine ⟨by decide, by decide, fun _ => rfl, by decide⟩

/-! ## Claim C3: sliding-window graph vs naive pairwise graph. -/

/-- C3 counterexample: the claim asserts the sliding-window-built maximally
    connected graph equals the naive pairwise graph.  In `mC3`, poles 1 and
    2 are distinct poles with `is_connectable_pole` true (their squared
    distance `7.5 + 10⁻⁸` squared is within `min(wire_distance)² + 10⁻⁶`),
    so the naive graph has the edge; but pole 2's degenerate collision box
    registers it only in the tile bucket (−8, 0), one column outside pole
    1's wire-reach window `[−7, 9)²`, and pole 1 has the smaller id when
    pole 2's window sees it, so the window-built graph has no edge at all. -/
theorem claim3_counterexample :
    ((mC3.get 1).map (fun e => e.poleData.isSome)).getD false = true ∧
    ((mC3.get 2).map (fun e => decide (e.entity = entC3B))).getD false = true ∧
    BpModel.isConnectablePole ⟨1/2, 1/2⟩ ⟨5/2, 15/2⟩ entC3B = true ∧
    (mC3.getMaximallyConnectedPoleGraph).1.edges = [] := by
  exact ⟨by decide, by decide, by decide, by decide⟩

/-! ## Claim C4: degree bound and crossings of the pretty connector. -/

/-- C4 counterexample: the claim asserts no two edges of the pretty
    connector's output cross.  On the 4-node graph whose only candidate
    edges are the two diagonals of a unit square, the MST stage (which
    performs no crossing checks) commits both diagonals, and the output
    contains two properly crossing edges. -/
theorem claim4_counterexample :
    hC4.containsEdge 0 1 = true ∧ hC4.containsEdge 2 3 = true ∧
    noEdgeCrossB id hC4 = false := by
  exact ⟨by decide, by decide, by decide⟩

/-! ## Claim C7: spanning. -/

/-- C7 counterexample: the claim asserts any two nodes joined in the input
    are joined in the output.  In the 7-node hub graph `gC7` the hub
    reaches degree `MAX_DEGREE = 5` after five commits, the sixth edge is
    dropped by the degree guard in both stages, and node 6 is isolated in
    the output although it is adjacent to the hub in the input. -/
theorem claim7_counterexample :
    gC7.joined 0 6 ∧ ¬ hC7.joined 0 6 := by
  constructor
  · exact Relation.ReflTransGen.single
      (show gC7.containsEdge 0 6 = true by decide)
  · intro h
    have hedges : hC7.edges =
        [(0, 1, -6), (0, 2, -5), (0, 3, -4), (0, 4, -3), (0, 5, -2)] := by
      decide
    have hnotadj : ∀ c : Nat, ¬ hC7.adj c 6 := by
      intro c hadj
      unfold Graph.adj Graph.containsEdge at hadj
      rw [hedges] at hadj
      simp [edgeJoins] at hadj
    rcases (Relation.ReflTransGen.cases_tail h) with h1 | ⟨c, _, hc⟩
    · exact absurd h1.symm (by decide)
    · exact hnotadj c hc

/-! ## Claim C5: cable-neighbor symmetry. -/

/-- C5 counterexample: the claim asserts that after any sequence of
    `add_cable_connection` / `remove` operations, every listed neighbor is
    present and lists back.  `remove` does not touch other entities'
    neighbor sets: after connecting poles 1 and 2 and removing pole 1,
    pole 2 still lists the absent pole 1. -/
theorem claim5_counterexample :
    applyOps BpModel.new opsC5 = some mC5 ∧
    ((mC5.get 2).map (fun e => decide (1 ∈ e.connIds))).getD false = true ∧
    mC5.get 1 = none ∧
    mC5.cableSymPresentB = false := by
  exact ⟨by decide, by decide, by decide, by decide⟩

/-! ## Claim C6: candidate pole enumeration. -/

/-- C6 counterexample: the claim asserts a candidate pole is skipped when a
    tile of its footprint is held by a candidate of a different prototype.
    `with_all_candidate_poles` checks `can_place` against the original
    model only, so over an empty base model both prototypes' candidates are
    placed on the same tile (0,0). -/
theorem claim6_counterexample :
    (∃ p ∈ mC6.all_entities,
      p.2.entity = (⟨protoPole, ⟨1/2, 1/2⟩, 0⟩ : WorldEntity)) ∧
    (∃ p ∈ mC6.all_entities,
      p.2.entity = (⟨protoPoleB, ⟨1/2, 1/2⟩, 0⟩ : WorldEntity)) := by
  exact ⟨by decide, by decide⟩

/-! ## MST-stage and stage-2 lemmas for claims C4 and C7. -/

theorem degree_addEdge (g : Graph N) (s t : Nat) (w : Q) (i : Nat) :
    (g.addEdge s t w).degree i =
      g.degree i + (if s = i then 1 else if t = i then 1 else 0) := by
  unfold Graph.degree Graph.neighbors Graph.addEdge
  simp only [List.filterMap_append, List.length_append]
  congr 1
  simp only [List.filterMap_cons, List.filterMap_nil]
  split_ifs <;> simp_all

theorem containsEdge_false {g : Graph N} {a b : Nat}
    (h : g.containsEdge a b = false) : ∀ e ∈ g.edges, edgeJoins e a b = false := by
  intro e he
  cases hb : edgeJoins e a b
  · rfl
  · have : g.containsEdge a b = true := by
      unfold Graph.containsEdge
      exact List.any_eq_true.2 ⟨e, he, hb⟩
    rw [h] at this
    cases this

theorem updateEdgeList_append {a b : Nat} (w : Q) :
    ∀ {es : List (Nat × Nat × Q)}, (∀ e ∈ es, edgeJoins e a b = false) →
      updateEdgeList a b w es = es ++ [(a, b, w)] := by
  intro es
  induction es with
  | nil => intro _; rfl
  | cons e rest ih =>
    intro h
    unfold updateEdgeList
    rw [if_neg (by simp [h e (List.mem_cons_self _ _)])]
    rw [List.cons_append]
    exact congrArg _ (ih (fun x hx => h x (List.mem_cons_of_mem _ hx)))

theorem updateEdge_eq_addEdge {g : Graph N} {a b : Nat} (w : Q)
    (h : g.containsEdge a b = false) : g.updateEdge a b w = g.addEdge a b w := by
  unfold Graph.updateEdge Graph.addEdge
  rw [updateEdgeList_append w (containsEdge_false h)]

theorem canConnect_facts {cand res : Graph N} {pos : N → MapPos} {a b : Nat}
    (h : canConnect cand res pos a b = true) :
    res.containsEdge a b = false ∧
    res.degree a < MAX_DEGREE ∧ res.degree b < MAX_DEGREE := by
  unfold canConnect at h
  split at h
  · exact absurd h (by simp)
  · rename_i h1
    split at h
    · exact absurd h (by simp)
    · rename_i h2
      simp only [Bool.or_eq_true, decide_eq_true_eq, not_or, not_le] at h2
      exact ⟨Bool.not_eq_true _ ▸ (by simpa using h1), h2.1, h2.2⟩

theorem mstLoop_degree_le (N : Type) :
    ∀ (fuel : Nat) (uf : UnionFind) (heap : List (Q × Q × Nat × Nat))
      (res : Graph N),
      (∀ i, res.degree i ≤ MAX_DEGREE) →
      ∀ i, (mstLoop N fuel uf heap res).degree i ≤ MAX_DEGREE := by
  intro fuel
  induction fuel with
  | zero => intro uf heap res h i; exact h i
  | succ fuel ih =>
    intro uf heap res h i
    unfold mstLoop
    cases hpop : heapPopMin heap with
    | none => exact h i
    | some pr =>
      obtain ⟨⟨key, orig, s, t⟩, rest⟩ := pr
      simp only []
      split_ifs with h1 h2 h3 h4
      · exact ih uf rest res h i
      · exact ih uf rest res h i
      · exact ih uf ((key * DEGREE_MULT.getD (max (res.degree s) (res.degree t)) 1,
          orig, s, t) :: rest) res h i
      · have hmax : max (res.degree s) (res.degree t) < MAX_DEGREE := Nat.lt_of_not_le h2
        apply ih
        intro j
        rw [degree_addEdge]
        have h5 : MAX_DEGREE = 5 := rfl
        have hs : res.degree s < 5 := by
          have := Nat.le_max_left (res.degree s) (res.degree t)
          omega
        have ht : res.degree t < 5 := by
          have := Nat.le_max_right (res.degree s) (res.degree t)
          omega
        have hj := h j
        split_ifs with e1 e2
        · rw [e1] at hs
          omega
        · rw [e2] at ht
          omega
        · omega
      · exact ih _ rest res h i

theorem stage2_degree_le {N : Type} (cand : Graph N) (pos : N → MapPos) :
    ∀ (l : List (Q × Q × Nat × Nat)) (res : Graph N),
      (∀ i, res.degree i ≤ MAX_DEGREE) →
      ∀ i, (l.foldl (fun res e =>
          if canConnect cand res pos e.2.2.1 e.2.2.2 then
            res.updateEdge e.2.2.1 e.2.2.2 e.2.1
          else res) res).degree i ≤ MAX_DEGREE := by
  intro l
  induction l with
  | nil => intro res h i; exact h i
  | cons x rest ih =>
    intro res h i
    simp only [List.foldl_cons]
    apply ih
    intro j
    by_cases hc : canConnect cand res pos x.2.2.1 x.2.2.2 = true
    · obtain ⟨hce, ha, hb⟩ := canConnect_facts hc
      rw [if_pos hc, updateEdge_eq_addEdge _ hce, degree_addEdge]
      have h5 : MAX_DEGREE = 5 := rfl
      have hj := h j
      split_ifs with e1 e2
      · rw [e1] at ha
        omega
      · rw [e2] at hb
        omega
      · omega
    · rw [if_neg hc]
      exact h j

/-- C4 (amended): for every input graph, the graph returned by
    `PrettyPoleConnector::connect_poles` has maximum node degree at most
    `MAX_DEGREE = 5`: the MST stage refuses edges whose endpoint degrees
    have reached the cap, and `can_connect` does the same in stage 2. -/
theorem claim4_max_degree {N : Type} (pos : N → MapPos) (g : Graph N)
    (i : Nat) : (prettyConnectPoles pos g).degree i ≤ MAX_DEGREE := by
  unfold prettyConnectPoles
  apply stage2_degree_le
  intro j
  unfold weightedMSTConnectPoles
  apply mstLoop_degree_le
  intro j2
  show (List.length _) ≤ MAX_DEGREE
  simp [Graph.neighbors]

theorem heapPopMin_mem :
    ∀ {l : List (Q × Q × Nat × Nat)} {e : Q × Q × Nat × Nat}
      {rest : List (Q × Q × Nat × Nat)},
      heapPopMin l = some (e, rest) → e ∈ l ∧ ∀ x ∈ rest, x ∈ l := by
  intro l
  induction l with
  | nil => intro e rest h; simp [heapPopMin] at h
  | cons a as ih =>
    intro e rest h
    unfold heapPopMin at h
    cases has : heapPopMin as with
    | none =>
      rw [has] at h
      have h2 : some (a, ([] : List (Q × Q × Nat × Nat))) = some (e, rest) := h
      cases h2
      exact ⟨List.mem_cons_self _ _, by intro x hx; cases hx⟩
    | some pr =>
      obtain ⟨e2, rest2⟩ := pr
      rw [has] at h
      have h2 : (if a.1 ≤ e2.1 then some (a, as)
          else some (e2, a :: rest2)) = some (e, rest) := h
      split_ifs at h2 with hle
      · cases h2
        exact ⟨List.mem_cons_self _ _, fun x hx => List.mem_cons_of_mem _ hx⟩
      · cases h2
        obtain ⟨hmem, hsub⟩ := ih has
        refine ⟨List.mem_cons_of_mem _ hmem, ?_⟩
        intro x hx
        rcases List.mem_cons.1 hx with rfl | hx2
        · exact List.mem_cons_self _ _
        · exact List.mem_cons_of_mem _ (hsub x hx2)

theorem edgeJoins_symm (e : Nat × Nat × Q) (a b : Nat) :
    edgeJoins e a b = edgeJoins e b a := by
  unfold edgeJoins
  rcases e with ⟨s, t, w⟩
  simp only []
  rw [Bool.or_comm]

theorem mstLoop_nodes (N : Type) :
    ∀ (fuel : Nat) (uf : UnionFind) (heap : List (Q × Q × Nat × Nat))
      (res : Graph N), (mstLoop N fuel uf heap res).nodes = res.nodes := by
  intro fuel
  induction fuel with
  | zero => intro _ _ _; rfl
  | succ fuel ih =>
    intro uf heap res
    unfold mstLoop
    cases hpop : heapPopMin heap with
    | none => rfl
    | some pr =>
      obtain ⟨⟨key, orig, s, t⟩, rest⟩ := pr
      simp only []
      split_ifs <;> rw [ih]
      rfl

theorem mstLoop_edges_from (N : Type) (g : Graph N) :
    ∀ (fuel : Nat) (uf : UnionFind) (heap : List (Q × Q × Nat × Nat))
      (res : Graph N),
      (∀ x ∈ heap, heapEntryFrom g x) →
      (∀ e ∈ res.edges, edgeFrom g e) →
      ∀ e ∈ (mstLoop N fuel uf heap res).edges, edgeFrom g e := by
  intro fuel
  induction fuel with
  | zero => intro uf heap res _ hres e he; exact hres e he
  | succ fuel ih =>
    intro uf heap res hheap hres e he
    unfold mstLoop at he
    cases hpop : heapPopMin heap with
    | none =>
      rw [hpop] at he
      exact hres e he
    | some pr =>
      obtain ⟨⟨key, orig, s, t⟩, rest⟩ := pr
      rw [hpop] at he
      obtain ⟨hmem, hsub⟩ := heapPopMin_mem hpop
      have hrest : ∀ x ∈ rest, heapEntryFrom g x :=
        fun x hx => hheap x (hsub x hx)
      have hpopped : heapEntryFrom g (key, orig, s, t) := hheap _ hmem
      simp only [] at he
      split_ifs at he with h1 h2 h3 h4
      · exact ih uf rest res hrest hres e he
      · exact ih uf rest res hrest hres e he
      · refine ih uf _ res ?_ hres e he
        intro x hx
        rcases List.mem_cons.1 hx with rfl | hx2
        · exact hpopped
        · exact hrest x hx2
      · refine ih _ rest _ hrest ?_ e he
        intro e2 he2
        unfold Graph.addEdge at he2
        simp only [List.mem_append, List.mem_singleton] at he2
        rcases he2 with he2 | rfl
        · exact hres e2 he2
        · exact hpopped
      · exact ih _ rest res hrest hres e he

theorem mem_updateEdgeList :
    ∀ {es : List (Nat × Nat × Q)} {a b : Nat} {w : Q} {e : Nat × Nat × Q},
      e ∈ updateEdgeList a b w es →
      e ∈ es ∨ e = (a, b, w) ∨
        ∃ e0 ∈ es, e = (e0.1, e0.2.1, w) ∧ edgeJoins e0 a b = true := by
  intro es
  induction es with
  | nil =>
    intro a b w e he
    unfold updateEdgeList at he
    exact .inr (.inl (List.mem_singleton.1 he))
  | cons e1 rest ih =>
    intro a b w e he
    unfold updateEdgeList at he
    split_ifs at he with hj
    · rcases List.mem_cons.1 he with rfl | he2
      · exact .inr (.inr ⟨e1, List.mem_cons_self _ _, rfl, hj⟩)
      · exact .inl (List.mem_cons_of_mem _ he2)
    · rcases List.mem_cons.1 he with rfl | he2
      · exact .inl (List.mem_cons_self _ _)
      · rcases ih he2 with h1 | h2 | ⟨e0, he0, heq, hj0⟩
        · exact .inl (List.mem_cons_of_mem _ h1)
        · exact .inr (.inl h2)
        · exact .inr (.inr ⟨e0, List.mem_cons_of_mem _ he0, heq, hj0⟩)

theorem mem_insertSorted {le : α → α → Bool} {x y : α} {l : List α}
    (h : x ∈ insertSorted le y l) : x = y ∨ x ∈ l := by
  induction l with
  | nil => exact .inl (List.mem_singleton.1 h)
  | cons z rest ih =>
    unfold insertSorted at h
    split_ifs at h
    · rcases List.mem_cons.1 h with rfl | h2
      · exact .inl rfl
      · exact .inr h2
    · rcases List.mem_cons.1 h with rfl | h2
      · exact .inr (List.mem_cons_self _ _)
      · rcases ih h2 with h3 | h3
        · exact .inl h3
        · exact .inr (List.mem_cons_of_mem _ h3)

theorem mem_sortStable {le : α → α → Bool} {x : α} {l : List α}
    (h : x ∈ sortStable le l) : x ∈ l := by
  induction l with
  | nil => exact h
  | cons y rest ih =>
    unfold sortStable at h
    simp only [List.foldr_cons] at h
    rcases mem_insertSorted h with rfl | h2
    · exact List.mem_cons_self _ _
    · exact List.mem_cons_of_mem _ (ih h2)

theorem stage2_nodes {N : Type} (cand : Graph N) (pos : N → MapPos) :
    ∀ (l : List (Q × Q × Nat × Nat)) (res : Graph N),
      (l.foldl (fun res e =>
          if canConnect cand res pos e.2.2.1 e.2.2.2 then
            res.updateEdge e.2.2.1 e.2.2.2 e.2.1
          else res) res).nodes = res.nodes := by
  intro l
  induction l with
  | nil => intro res; rfl
  | cons x rest ih =>
    intro res
    simp only [List.foldl_cons]
    rw [ih]
    split_ifs <;> rfl

theorem stage2_edges_from {N : Type} (g cand : Graph N) (pos : N → MapPos) :
    ∀ (l : List (Q × Q × Nat × Nat)) (res : Graph N),
      (∀ x ∈ l, heapEntryFrom g x) →
      (∀ e ∈ res.edges, edgeFrom g e) →
      ∀ e ∈ (l.foldl (fun res e =>
          if canConnect cand res pos e.2.2.1 e.2.2.2 then
            res.updateEdge e.2.2.1 e.2.2.2 e.2.1
          else res) res).edges, edgeFrom g e := by
  intro l
  induction l with
  | nil => intro res _ hres e he; exact hres e he
  | cons x rest ih =>
    intro res hl hres e he
    simp only [List.foldl_cons] at he
    refine ih _ (fun y hy => hl y (List.mem_cons_of_mem _ hy)) ?_ e he
    intro e2 he2
    by_cases hc : canConnect cand res pos x.2.2.1 x.2.2.2 = true
    · rw [if_pos hc] at he2
      unfold Graph.updateEdge at he2
      obtain ⟨e', he', hj', hw'⟩ := hl x (List.mem_cons_self _ _)
      rcases mem_updateEdgeList he2 with h1 | rfl | ⟨e0, he0, rfl, hj0⟩
      · exact hres e2 h1
      · exact ⟨e', he', hj', hw'⟩
      · refine ⟨e', he', ?_, hw'⟩
        unfold edgeJoins at hj0 ⊢
        unfold edgeJoins at hj'
        simp only [Bool.or_eq_true, Bool.and_eq_true, decide_eq_true_eq] at hj0 hj' ⊢
        rcases hj0 with ⟨h01, h02⟩ | ⟨h01, h02⟩
        · rw [h01, h02]
          exact hj'
        · rw [h01, h02]
          rcases hj' with ⟨ha, hb⟩ | ⟨ha, hb⟩
          · exact .inr ⟨ha, hb⟩
          · exact .inl ⟨ha, hb⟩
    · rw [if_neg hc] at he2
      exact hres e2 he2

/-- C7 (amended): for every input graph `G`, the output of
    `PrettyPoleConnector::connect_poles` has the same node set as `G` and
    every one of its edges joins a pair joined by an edge of `G` of the
    same weight (the output is a subgraph of `G`). -/
theorem claim7_subgraph {N : Type} (pos : N → MapPos) (g : Graph N) :
    (prettyConnectPoles pos g).nodes = g.nodes ∧
    ∀ e ∈ (prettyConnectPoles pos g).edges, edgeFrom g e := by
  constructor
  · unfold prettyConnectPoles
    rw [stage2_nodes]
    unfold weightedMSTConnectPoles
    rw [mstLoop_nodes]
  · unfold prettyConnectPoles
    intro e he
    refine stage2_edges_from g g pos _ _ ?_ ?_ e he
    · intro x hx
      have hx2 := mem_sortStable hx
      obtain ⟨e0, he0, heq⟩ := List.mem_map.1 hx2
      subst heq
      exact ⟨e0, he0, by simp [edgeJoins], rfl⟩
    · intro e2 he2
      unfold weightedMSTConnectPoles at he2
      refine mstLoop_edges_from N g _ _ _ _ ?_ ?_ e2 he2
      · intro x hx
        obtain ⟨e0, he0, heq⟩ := List.mem_map.1 hx
        subst heq
        exact ⟨e0, he0, by simp [edgeJoins], rfl⟩
      · intro e3 he3
        simp at he3

/-- C7 witness: the subgraph theorem applied to the hub graph `gC7` and
    its output edge (0, 1, −6). -/
theorem claim7_witness : edgeFrom gC7 (0, 1, -6) :=
  (claim7_subgraph id gC7).2 (0, 1, -6) (by decide)

/-! ## Lemmas for claim C1: coverage constraint semantics. -/

theorem constraintSum_exists {x : Nat → Bool} :
    ∀ {poles : List Nat}, 1 ≤ constraintSum x poles → ∃ i ∈ poles, x i = true := by
  intro poles
  induction poles with
  | nil => intro h; simp [constraintSum] at h
  | cons p rest ih =>
    intro h
    unfold constraintSum at h
    simp only [List.map_cons, List.sum_cons] at h
    by_cases hx : x p = true
    · exact ⟨p, List.mem_cons_self _ _, hx⟩
    · rw [if_neg hx] at h
      have h2 : 1 ≤ constraintSum x rest := by
        unfold constraintSum
        omega
      obtain ⟨i, hi, hxi⟩ := ih h2
      exact ⟨i, List.mem_cons_of_mem _ hi, hxi⟩

theorem coverage_inner_sound (g : Graph CandPoleNode) (idx : Nat)
    (node : CandPoleNode) (hnode : g.nodes.get? idx = some node) :
    ∀ (l : List EntityId) (dict : List (EntityId × List Nat)),
      (∀ eid ∈ l, eid ∈ node.powered_entities) →
      (∀ ep ∈ dict, ∀ i ∈ ep.2,
        ∃ nd, g.nodes.get? i = some nd ∧ ep.1 ∈ nd.powered_entities) →
      ∀ ep ∈ (l.foldl
          (fun dict eid =>
            match alookup eid dict with
            | some idxs => aupdate eid (listInsert idx idxs) dict
            | none => dict ++ [(eid, [idx])])
          dict),
        ∀ i ∈ ep.2,
          ∃ nd, g.nodes.get? i = some nd ∧ ep.1 ∈ nd.powered_entities := by
  intro l
  induction l with
  | nil =>
    intro dict _ hd ep hep
    simp only [List.foldl_nil] at hep
    exact hd ep hep
  | cons eid rest ih =>
    intro dict hl hd
    simp only [List.foldl_cons]
    apply ih
    · intro e he
      exact hl e (List.mem_cons_of_mem _ he)
    · intro ep hep i hi
      cases hlk : alookup eid dict with
      | some idxs =>
        rw [hlk] at hep
        have hep2 : ep ∈ aupdate eid (listInsert idx idxs) dict := hep
        rcases mem_aupdate hep2 with rfl | hmem
        · simp only [] at hi
          rcases mem_listInsert_iff.1 hi with rfl | hi2
          · exact ⟨node, hnode, hl eid (List.mem_cons_self _ _)⟩
          · exact hd (eid, idxs) (alookup_mem hlk) i hi2
        · exact hd ep hmem i hi
      | none =>
        rw [hlk] at hep
        have hep2 : ep ∈ dict ++ [(eid, [idx])] := hep
        rcases List.mem_append.1 hep2 with hmem | hmem
        · exact hd ep hmem i hi
        · rw [List.mem_singleton] at hmem
          subst hmem
          simp only [List.mem_singleton] at hi
          subst hi
          exact ⟨node, hnode, hl eid (List.mem_cons_self _ _)⟩

theorem coverage_dict_sound (g : Graph CandPoleNode) :
    ∀ ep ∈ getPoleCoverageDict g, ∀ i ∈ ep.2,
      ∃ nd, g.nodes.get? i = some nd ∧ ep.1 ∈ nd.powered_entities := by
  have main : ∀ (idxs : List Nat) (dict : List (EntityId × List Nat)),
      (∀ ep ∈ dict, ∀ i ∈ ep.2,
        ∃ nd, g.nodes.get? i = some nd ∧ ep.1 ∈ nd.powered_entities) →
      ∀ ep ∈ (idxs.foldl
          (fun dict idx =>
            match g.nodes.get? idx with
            | none => dict
            | some node =>
              node.powered_entities.foldl
                (fun dict eid =>
                  match alookup eid dict with
                  | some idxs => aupdate eid (listInsert idx idxs) dict
                  | none => dict ++ [(eid, [idx])])
                dict)
          dict),
        ∀ i ∈ ep.2,
          ∃ nd, g.nodes.get? i = some nd ∧ ep.1 ∈ nd.powered_entities := by
    intro idxs
    induction idxs with
    | nil =>
      intro dict hd ep hep
      simp only [List.foldl_nil] at hep
      exact hd ep hep
    | cons idx rest ih =>
      intro dict hd
      simp only [List.foldl_cons]
      apply ih
      cases hnode : g.nodes.get? idx with
      | none =>
        intro ep hep
        exact hd ep hep
      | some node =>
        intro ep hep
        exact coverage_inner_sound g idx node hnode node.powered_entities dict
          (fun e he => he) hd ep hep
  intro ep hep
  exact main (List.range (getPoleCoverageDict g |> fun _ => g.nodes.length)) [] (by simp) ep hep

/-- C1 (amended): for every candidate pole graph and every 0/1 assignment
    satisfying the coverage constraints generated by
    `SetCoverILPSolver::add_set_cover_constraints`, every consumer with a
    non-empty candidate set (i.e. every entry of the coverage dictionary)
    has a selected pole among its covering nodes — membership in the
    node's `powered_entities` coverage set, not a Euclidean-distance
    guarantee. -/
theorem claim1_coverage (g : Graph CandPoleNode) (x : Nat → Bool)
    (hx : satisfiesCoverage g x) :
    ∀ ep ∈ getPoleCoverageDict g, ∃ idx ∈ ep.2, x idx = true ∧
      ∃ node, g.nodes.get? idx = some node ∧ ep.1 ∈ node.powered_entities := by
  intro ep hep
  have hc : 1 ≤ constraintSum x ep.2 := by
    refine hx ep.2 ?_
    unfold setCoverConstraints
    exact List.mem_map_of_mem Prod.snd hep
  obtain ⟨i, hi, hxi⟩ := constraintSum_exists hc
  obtain ⟨nd, hnd, hpe⟩ := coverage_dict_sound g ep hep i hi
  exact ⟨i, hi, hxi, nd, hnd, hpe⟩

/-- C1 witness: the amended coverage theorem applied to the concrete graph
    `gC1`, the all-ones assignment and the dictionary entry of consumer 1. -/
theorem claim1_witness :
    ∃ idx ∈ ([0] : List Nat), xAll idx = true ∧
      ∃ node, gC1.nodes.get? idx = some node ∧ 1 ∈ node.powered_entities :=
  claim1_coverage gC1 xAll (by decide) (1, [0]) (by decide)

/-! ## Lemmas for claim C6: candidate pole enumeration. -/

theorem addOverlap_all_entities (pm : BpModel) (e : WorldEntity) :
    (pm.addOverlap e).2.all_entities =
      pm.all_entities ++ [(pm.next_id, ModelEntity.newEmpty pm.next_id e)] := rfl

theorem candTileStep_eq (m : BpModel) (proto : EntityPrototype)
    (pm : BpModel) (t : TilePos) :
    candTileStep m proto pm t =
      if m.canPlace (candEntity proto t) then (pm.addOverlap (candEntity proto t)).2
      else pm := rfl

theorem candTiles_appears (m : BpModel) (proto : EntityPrototype)
    (e : WorldEntity) :
    ∀ (tiles : List TilePos) (pm : BpModel),
      ((∃ p ∈ (tiles.foldl (candTileStep m proto) pm).all_entities,
          p.2.entity = e) ↔
        ((∃ p ∈ pm.all_entities, p.2.entity = e) ∨
          ∃ t ∈ tiles, e = candEntity proto t ∧
            m.canPlace (candEntity proto t) = true)) := by
  intro tiles
  induction tiles with
  | nil => intro pm; simp
  | cons t rest ih =>
    intro pm
    rw [List.foldl_cons, ih]
    constructor
    · rintro (hpm | ⟨t', ht', he, hcp⟩)
      · rw [candTileStep_eq] at hpm
        by_cases hc : m.canPlace (candEntity proto t) = true
        · rw [if_pos hc, addOverlap_all_entities] at hpm
          obtain ⟨p, hp, hpe⟩ := hpm
          rcases List.mem_append.1 hp with hp1 | hp2
          · exact .inl ⟨p, hp1, hpe⟩
          · rw [List.mem_singleton] at hp2
            subst hp2
            have he2 : candEntity proto t = e := hpe
            exact .inr ⟨t, List.mem_cons_self _ _, he2.symm, hc⟩
        · rw [if_neg hc] at hpm
          exact .inl hpm
      · exact .inr ⟨t', List.mem_cons_of_mem _ ht', he, hcp⟩
    · rintro (hpm | ⟨t', ht', he, hcp⟩)
      · left
        rw [candTileStep_eq]
        by_cases hc : m.canPlace (candEntity proto t) = true
        · rw [if_pos hc, addOverlap_all_entities]
          obtain ⟨p, hp, hpe⟩ := hpm
          exact ⟨p, List.mem_append_left _ hp, hpe⟩
        · rw [if_neg hc]
          exact hpm
      · rcases List.mem_cons.1 ht' with rfl | ht2
        · left
          rw [candTileStep_eq, if_pos hcp, addOverlap_all_entities]
          refine ⟨(pm.next_id, ModelEntity.newEmpty pm.next_id (candEntity proto t')),
            List.mem_append_right _ (List.mem_singleton_self _), ?_⟩
          exact he.symm
        · exact .inr ⟨t', ht2, he, hcp⟩

theorem candProtos_appears (m : BpModel) (area : TileBox) (e : WorldEntity) :
    ∀ (protos : List EntityPrototype) (pm : BpModel),
      ((∃ p ∈ (protos.foldl
          (fun pole_model proto =>
            (area.contractMax ((proto.tile_width : ℤ) - 1)).iterTiles.foldl
              (candTileStep m proto) pole_model)
          pm).all_entities, p.2.entity = e) ↔
        ((∃ p ∈ pm.all_entities, p.2.entity = e) ∨
          ∃ proto ∈ protos,
            ∃ t ∈ (area.contractMax ((proto.tile_width : ℤ) - 1)).iterTiles,
              e = candEntity proto t ∧
                m.canPlace (candEntity proto t) = true)) := by
  intro protos
  induction protos with
  | nil => intro pm; simp
  | cons proto rest ih =>
    intro pm
    simp only [List.foldl_cons]
    rw [ih, candTiles_appears]
    constructor
    · rintro ((hpm | ⟨t, ht, he, hcp⟩) | ⟨proto', hp', t, ht, he, hcp⟩)
      · exact .inl hpm
      · exact .inr ⟨proto, List.mem_cons_self _ _, t, ht, he, hcp⟩
      · exact .inr ⟨proto', List.mem_cons_of_mem _ hp', t, ht, he, hcp⟩
    · rintro (hpm | ⟨proto', hp', t, ht, he, hcp⟩)
      · exact .inl (.inl hpm)
      · rcases List.mem_cons.1 hp' with rfl | h2
        · exact .inl (.inr ⟨t, ht, he, hcp⟩)
        · exact .inr ⟨proto', h2, t, ht, he, hcp⟩

/-- C6 (amended): for every base model, area, prototype list, requested
    prototype and tile of the contracted area, the candidate pole centred on
    that tile appears in the result of `with_all_candidate_poles` iff it can
    be placed in the ORIGINAL model (no footprint tile of the candidate is
    occupied there) or an equal entity was already present; in particular
    candidate poles never block each other, regardless of prototype. -/
theorem claim6_candidates (m : BpModel) (area : TileBox)
    (protos : List EntityPrototype) (proto : EntityPrototype)
    (hproto : proto ∈ protos) (t : TilePos)
    (ht : t ∈ (area.contractMax ((proto.tile_width : ℤ) - 1)).iterTiles) :
    ((∃ p ∈ (m.withAllCandidatePoles area protos).all_entities,
        p.2.entity = candEntity proto t) ↔
      (m.canPlace (candEntity proto t) = true ∨
        ∃ p ∈ m.all_entities, p.2.entity = candEntity proto t)) := by
  have heq : m.withAllCandidatePoles area protos =
      protos.foldl
        (fun pole_model proto =>
          (area.contractMax ((proto.tile_width : ℤ) - 1)).iterTiles.foldl
            (candTileStep m proto) pole_model)
        m := rfl
  rw [heq, candProtos_appears]
  constructor
  · rintro (hin | ⟨proto', _, t', _, he, hcp⟩)
    · exact .inr hin
    · rw [← he] at hcp
      exact .inl hcp
  · rintro (hcp | hin)
    · exact .inr ⟨proto, hproto, t, ht, rfl, hcp⟩
    · exact .inl hin

/-- C6 witness: the amended enumeration theorem applied to the empty base
    model, a one-tile area and the two concrete pole prototypes. -/
theorem claim6_witness :
    ((∃ p ∈ (BpModel.new.withAllCandidatePoles ⟨0, 0, 1, 1⟩
        [protoPole, protoPoleB]).all_entities,
        p.2.entity = candEntity protoPoleB ⟨0, 0⟩) ↔
      (BpModel.new.canPlace (candEntity protoPoleB ⟨0, 0⟩) = true ∨
        ∃ p ∈ BpModel.new.all_entities,
          p.2.entity = candEntity protoPoleB ⟨0, 0⟩)) :=
  claim6_candidates BpModel.new ⟨0, 0, 1, 1⟩ [protoPole, protoPoleB] protoPoleB
    (by decide) ⟨0, 0⟩ (by decide)

/-! ## Lemmas for claim C5: cable-connection symmetry. -/

theorem connIds_newEmpty (id : EntityId) (e : WorldEntity) :
    (ModelEntity.newEmpty id e).connIds = [] := by
  by_cases hp : e.prototype.pole_data.isSome <;>
    simp [ModelEntity.newEmpty, ModelEntity.connIds, hp]

theorem connIds_of_poleConnections {me : ModelEntity} {c : PoleConnections}
    (h : me.poleConnections = some c) : me.connIds = c.connections := by
  unfold ModelEntity.poleConnections at h
  unfold ModelEntity.connIds
  cases hx : me.extra with
  | pole c' =>
    rw [hx] at h
    cases h
    rfl
  | noExtra =>
    rw [hx] at h
    cases h

theorem cableInv_addOverlap {m : BpModel} (e : WorldEntity) (h : CableInv m) :
    CableInv (m.addOverlap e).2 := by
  obtain ⟨hb1, hb2, hnd, hsym⟩ := h
  have hall : (m.addOverlap e).2.all_entities =
      m.all_entities ++ [(m.next_id, ModelEntity.newEmpty m.next_id e)] := rfl
  have hnid : (m.addOverlap e).2.next_id = m.next_id + 1 := rfl
  unfold CableInv CableSym
  rw [hall, hnid]
  refine ⟨?_, ?_, ?_, ?_⟩
  · intro p hp
    rcases List.mem_append.1 hp with hp1 | hp2
    · exact Nat.lt_succ_of_lt (hb1 p hp1)
    · rw [List.mem_singleton] at hp2
      subst hp2
      exact Nat.lt_succ_self _
  · intro p hp a ha
    rcases List.mem_append.1 hp with hp1 | hp2
    · exact Nat.lt_succ_of_lt (hb2 p hp1 a ha)
    · rw [List.mem_singleton] at hp2
      subst hp2
      have ha2 : a ∈ (ModelEntity.newEmpty m.next_id e).connIds := ha
      rw [connIds_newEmpty] at ha2
      exact absurd ha2 (List.not_mem_nil a)
  · rw [List.map_append]
    simp only [List.map_cons, List.map_nil]
    refine List.nodup_append.2 ⟨hnd, List.nodup_singleton _, ?_⟩
    intro x hx hx2
    rw [List.mem_singleton] at hx2
    subst hx2
    obtain ⟨p, hp, hpx⟩ := List.mem_map.1 hx
    exact absurd (hpx ▸ hb1 p hp) (lt_irrefl _)
  · intro p hp a ha ae hae
    rcases List.mem_append.1 hp with hp1 | hp2
    · have halt : a < m.next_id := hb2 p hp1 a ha
      rw [alookup_append_of_ne _ _
        (fun hh => absurd (hh ▸ halt) (lt_irrefl _))] at hae
      exact hsym p hp1 a ha ae hae
    · rw [List.mem_singleton] at hp2
      subst hp2
      have ha2 : a ∈ (ModelEntity.newEmpty m.next_id e).connIds := ha
      rw [connIds_newEmpty] at ha2
      exact absurd ha2 (List.not_mem_nil a)

theorem cableInv_addNoOverlapStep {m : BpModel} (e : WorldEntity)
    (h : CableInv m) :
    CableInv (match m.addNoOverlap e with | some r => r.2 | none => m) := by
  cases hx : m.addNoOverlap e with
  | none => exact h
  | some r =>
    unfold BpModel.addNoOverlap at hx
    split at hx
    · have hr := Option.some.inj hx
      subst hr
      exact cableInv_addOverlap e h
    · exact Option.noConfusion hx

theorem connIds_withConn (me : ModelEntity) (l : List EntityId) :
    (withConn me l).connIds = l := rfl

theorem modelWithEntities_all (m : BpModel) (ents : List (EntityId × ModelEntity)) :
    (modelWithEntities m ents).all_entities = ents := rfl

theorem cableInv_addCable {m : BpModel} (id other_id : EntityId)
    (h : CableInv m) : CableInv ((m.addCableConnection id other_id).getD m) := by
  cases hx : m.addCableConnection id other_id with
  | none => exact h
  | some m1 =>
    unfold BpModel.addCableConnection at hx
    split at hx
    · exact Option.noConfusion hx
    · rename_i hne
      split at hx
      · rename_i th ot h1 h2
        split at hx
        · rename_i pd1 pd2 h3 h4
          have hx2 : (if Q.minQ pd1.wire_distance pd2.wire_distance *
                Q.minQ pd1.wire_distance pd2.wire_distance <
                th.entity.position.sqDist ot.entity.position then
              (none : Option BpModel)
            else
              match th.poleConnections, ot.poleConnections with
              | some c1, some c2 =>
                some (modelWithEntities m
                  (aupdate other_id (withConn ot (listInsert id c2.connections))
                    (aupdate id (withConn th (listInsert other_id c1.connections))
                      m.all_entities)))
              | _, _ => none) = some m1 := hx
          split at hx2
          · exact Option.noConfusion hx2
          · split at hx2
            · rename_i c1 c2 h5 h6
              have hm1 := Option.some.inj hx2
              subst hm1
              show CableInv (modelWithEntities m
                (aupdate other_id (withConn ot (listInsert id c2.connections))
                  (aupdate id (withConn th (listInsert other_id c1.connections))
                    m.all_entities)))
              obtain ⟨hb1, hb2, hnd, hsym⟩ := h
              have hidlt : id < m.next_id := hb1 (id, th) (alookup_mem h1)
              have hotlt : other_id < m.next_id := hb1 (other_id, ot) (alookup_mem h2)
              have hthc : th.connIds = c1.connections := connIds_of_poleConnections h5
              have hotc : ot.connIds = c2.connections := connIds_of_poleConnections h6
              have lid : alookup id
                  (aupdate other_id (withConn ot (listInsert id c2.connections))
                    (aupdate id (withConn th (listInsert other_id c1.connections))
                      m.all_entities)) =
                  some (withConn th (listInsert other_id c1.connections)) := by
                rw [alookup_aupdate_ne _ _ hne]
                refine alookup_aupdate_self _ ?_
                rw [h1]
                rfl
              have lot : alookup other_id
                  (aupdate other_id (withConn ot (listInsert id c2.connections))
                    (aupdate id (withConn th (listInsert other_id c1.connections))
                      m.all_entities)) =
                  some (withConn ot (listInsert id c2.connections)) := by
                refine alookup_aupdate_self _ ?_
                rw [alookup_aupdate_ne _ _ (fun hh => hne hh.symm), h2]
                rfl
              refine ⟨?_, ?_, ?_, ?_⟩
              · intro p hp
                rcases mem_aupdate hp with rfl | hp2
                · exact hotlt
                · rcases mem_aupdate hp2 with rfl | hp3
                  · exact hidlt
                  · exact hb1 p hp3
              · intro p hp a ha
                rcases mem_aupdate hp with rfl | hp2
                · have ha2 : a ∈ listInsert id c2.connections := ha
                  rcases mem_listInsert_iff.1 ha2 with rfl | ha3
                  · exact hidlt
                  · refine hb2 (other_id, ot) (alookup_mem h2) a ?_
                    show a ∈ ot.connIds
                    rw [hotc]
                    exact ha3
                · rcases mem_aupdate hp2 with rfl | hp3
                  · have ha2 : a ∈ listInsert other_id c1.connections := ha
                    rcases mem_listInsert_iff.1 ha2 with rfl | ha3
                    · exact hotlt
                    · refine hb2 (id, th) (alookup_mem h1) a ?_
                      show a ∈ th.connIds
                      rw [hthc]
                      exact ha3
                  · exact hb2 p hp3 a ha
              · show ((aupdate other_id _ (aupdate id _ m.all_entities)).map
                  Prod.fst).Nodup
                rw [aupdate_map_fst, aupdate_map_fst]
                exact hnd
              · intro p hp a ha ae hae
                rw [modelWithEntities_all] at hae
                rcases mem_aupdate hp with rfl | hp2
                · have ha2 : a ∈ listInsert id c2.connections := ha
                  by_cases haid : a = id
                  · rw [haid, lid] at hae
                    have hae2 := Option.some.inj hae
                    subst hae2
                    show other_id ∈ listInsert other_id c1.connections
                    exact mem_listInsert_iff.2 (.inl rfl)
                  · by_cases haot : a = other_id
                    · rw [haot, lot] at hae
                      have hae2 := Option.some.inj hae
                      subst hae2
                      show other_id ∈ listInsert id c2.connections
                      refine mem_listInsert_iff.2 (.inr ?_)
                      rcases mem_listInsert_iff.1 ha2 with h' | h'
                      · exact absurd h' haid
                      · rw [← haot]
                        exact h'
                    · rw [alookup_aupdate_ne _ _ haot,
                        alookup_aupdate_ne _ _ haid] at hae
                      have ha3 : a ∈ ot.connIds := by
                        rw [hotc]
                        rcases mem_listInsert_iff.1 ha2 with h' | h'
                        · exact absurd h' haid
                        · exact h'
                      exact hsym (other_id, ot) (alookup_mem h2) a ha3 ae hae
                · rcases mem_aupdate hp2 with rfl | hp3
                  · have ha2 : a ∈ listInsert other_id c1.connections := ha
                    by_cases haot : a = other_id
                    · rw [haot, lot] at hae
                      have hae2 := Option.some.inj hae
                      subst hae2
                      show id ∈ listInsert id c2.connections
                      exact mem_listInsert_iff.2 (.inl rfl)
                    · by_cases haid : a = id
                      · rw [haid, lid] at hae
                        have hae2 := Option.some.inj hae
                        subst hae2
                        show id ∈ listInsert other_id c1.connections
                        refine mem_listInsert_iff.2 (.inr ?_)
                        rcases mem_listInsert_iff.1 ha2 with h' | h'
                        · exact absurd h' haot
                        · rw [← haid]
                          exact h'
                      · rw [alookup_aupdate_ne _ _ haot,
                          alookup_aupdate_ne _ _ haid] at hae
                        have ha3 : a ∈ th.connIds := by
                          rw [hthc]
                          rcases mem_listInsert_iff.1 ha2 with h' | h'
                          · exact absurd h' haot
                          · exact h'
                        exact hsym (id, th) (alookup_mem h1) a ha3 ae hae
                  · by_cases haid : a = id
                    · rw [haid, lid] at hae
                      have hae2 := Option.some.inj hae
                      subst hae2
                      show p.1 ∈ listInsert other_id c1.connections
                      refine mem_listInsert_iff.2 (.inr ?_)
                      rw [← hthc]
                      refine hsym p hp3 id ?_ th h1
                      rw [← haid]
                      exact ha
                    · by_cases haot : a = other_id
                      · rw [haot, lot] at hae
                        have hae2 := Option.some.inj hae
                        subst hae2
                        show p.1 ∈ listInsert id c2.connections
                        refine mem_listInsert_iff.2 (.inr ?_)
                        rw [← hotc]
                        refine hsym p hp3 other_id ?_ ot h2
                        rw [← haot]
                        exact ha
                      · rw [alookup_aupdate_ne _ _ haot,
                          alookup_aupdate_ne _ _ haid] at hae
                        exact hsym p hp3 a ha ae hae
            · exact Option.noConfusion hx2
        · exact Option.noConfusion hx
      · exact Option.noConfusion hx

theorem cableInv_removeQ {m m' : BpModel} {id : EntityId}
    (h : CableInv m) (hr : m.removeQ id = some m') : CableInv m' := by
  unfold BpModel.removeQ at hr
  split at hr
  · exact Option.noConfusion hr
  · rename_i e h1
    rw [Option.map_eq_some'] at hr
    obtain ⟨bt, hbt, hm'⟩ := hr
    subst hm'
    obtain ⟨hb1, hb2, hnd, hsym⟩ := h
    refine ⟨?_, ?_, ?_, ?_⟩
    · intro p hp
      exact hb1 p (mem_aerase hp)
    · intro p hp a ha
      exact hb2 p (mem_aerase hp) a ha
    · exact List.Nodup.sublist
        (List.Sublist.map Prod.fst (aerase_sublist id m.all_entities)) hnd
    · intro p hp a ha ae hae
      by_cases haid : a = id
      · subst haid
        rw [alookup_aerase_self hnd] at hae
        exact Option.noConfusion hae
      · rw [alookup_aerase_ne _ haid] at hae
        exact hsym p (mem_aerase hp) a ha ae hae

theorem cableInv_applyOp {m m1 : BpModel} {op : ModelOp}
    (h : CableInv m) (hop : applyOp m op = some m1) : CableInv m1 := by
  cases op with
  | addOverlapOp e =>
    have hr := Option.some.inj hop
    subst hr
    exact cableInv_addOverlap e h
  | addNoOverlapOp e =>
    have hr := Option.some.inj hop
    subst hr
    exact cableInv_addNoOverlapStep e h
  | addCableOp a b =>
    have hr := Option.some.inj hop
    subst hr
    exact cableInv_addCable a b h
  | removeOp i => exact cableInv_removeQ h hop

/-- C5 (amended): starting from any model satisfying the id-bound,
    key-distinctness and symmetry invariants (in particular from
    `BpModel::new`), after any sequence of `add_overlap` /
    `add_no_overlap` / `add_cable_connection` / `remove` operations the
    cable-neighbor sets are symmetric among the entities still present:
    whenever an entity lists `a` among its pole connections and `a` is in
    the model, then `a` lists that entity back.  (`remove` leaves dangling
    neighbor ids, so a listed neighbor need not itself be present.) -/
theorem claim5_symmetry (ops : List ModelOp) :
    ∀ m m' : BpModel, CableInv m → applyOps m ops = some m' → CableSym m' := by
  induction ops with
  | nil =>
    intro m m' hinv h
    have hr := Option.some.inj h
    subst hr
    exact hinv.2.2.2
  | cons op rest ih =>
    intro m m' hinv h
    unfold applyOps at h
    split at h
    · rename_i m1 hop
      exact ih m1 m' (cableInv_applyOp hinv hop) h
    · exact Option.noConfusion h

/-- C5 witness: the amended symmetry theorem applied to the concrete
    sequence `opsW5` (add two poles, connect them) from the empty model. -/
theorem claim5_witness : CableSym mW5 :=
  claim5_symmetry opsW5 BpModel.new mW5 (by decide) (by decide)

/-! ## Lemmas for claim C2: powered_entities. -/

theorem wfB_parts {m : BpModel} (hwf : m.wfB = true) :
    (∀ p ∈ m.all_entities, p.2.id = p.1) ∧
    (∀ p ∈ m.all_entities, ∀ t ∈ p.2.entity.worldBbox.iterTiles,
      p.1 ∈ (alookup t m.by_tile).getD []) ∧
    (∀ p ∈ m.by_tile, ∀ id ∈ p.2,
      ∃ me, alookup id m.all_entities = some me ∧
        p.1 ∈ me.entity.worldBbox.iterTiles) := by
  unfold BpModel.wfB at hwf
  simp only [Bool.and_eq_true, List.all_eq_true, decide_eq_true_eq] at hwf
  obtain ⟨⟨⟨h1, h2⟩, h3⟩, h4⟩ := hwf
  refine ⟨?_, ?_, ?_⟩
  · intro p hp
    exact (h3 p hp).1
  · intro p hp t ht
    exact (h3 p hp).2 t ht
  · intro p hp id hid
    have h5 := (h4 p hp).2 id hid
    cases hlk : alookup id m.all_entities with
    | none =>
      rw [hlk] at h5
      exact Bool.noConfusion (show false = true from h5)
    | some me =>
      rw [hlk] at h5
      exact ⟨me, rfl, of_decide_eq_true h5⟩

theorem mem_getAtTile {m : BpModel} {t : TilePos} {me : ModelEntity} :
    me ∈ m.getAtTile t ↔
      ∃ id ∈ (alookup t m.by_tile).getD [],
        alookup id m.all_entities = some me := by
  unfold BpModel.getAtTile
  rw [List.mem_filterMap]

theorem lookup_own_id {m : BpModel} (hwf : m.wfB = true) {id : EntityId}
    {me : ModelEntity} (h : alookup id m.all_entities = some me) :
    me.id = id ∧ alookup me.id m.all_entities = some me := by
  have h1 := (wfB_parts hwf).1 (id, me) (alookup_mem h)
  refine ⟨h1, ?_⟩
  rw [show me.id = id from h1]
  exact h

theorem mem_getAtTile_sound {m : BpModel} (hwf : m.wfB = true) {t : TilePos}
    {me : ModelEntity} (h : me ∈ m.getAtTile t) :
    alookup me.id m.all_entities = some me ∧
      t ∈ me.entity.worldBbox.iterTiles := by
  obtain ⟨id, hid, hlk⟩ := mem_getAtTile.1 h
  obtain ⟨hmeid, hlk2⟩ := lookup_own_id hwf hlk
  refine ⟨hlk2, ?_⟩
  cases hb : alookup t m.by_tile with
  | none =>
    rw [hb] at hid
    exact absurd hid (List.not_mem_nil id)
  | some ids =>
    rw [hb] at hid
    have hid2 : id ∈ ids := hid
    obtain ⟨me', hlk', ht'⟩ := (wfB_parts hwf).2.2 (t, ids) (alookup_mem hb) id hid2
    rw [hlk] at hlk'
    have hmm := Option.some.inj hlk'
    rw [← hmm] at ht'
    exact ht'

theorem mem_getAtTile_complete {m : BpModel} (hwf : m.wfB = true) {t : TilePos}
    {me : ModelEntity} (hlk : alookup me.id m.all_entities = some me)
    (ht : t ∈ me.entity.worldBbox.iterTiles) : me ∈ m.getAtTile t := by
  refine mem_getAtTile.2 ⟨me.id, ?_, hlk⟩
  exact (wfB_parts hwf).2.1 (me.id, me) (alookup_mem hlk) t ht

/-- C2 (amended): over a well-formed model, `powered_entities(pos, pd)`
    yields exactly the entities of the model that consume power (not poles,
    prototype `uses_power`) and whose world bounding box overlaps some tile
    of the square supply box `around_point(pos, pd.supply_radius)` rounded
    out to tiles, each yielded exactly once (ids are duplicate-free).
    There is no Euclidean-distance filter. -/
theorem claim2_powered_box (m : BpModel) (pos : MapPos) (pd : PoleData)
    (hwf : m.wfB = true) :
    (∀ me, me ∈ m.poweredEntities pos pd ↔
      (alookup me.id m.all_entities = some me ∧ me.entity.usesPower = true ∧
        ∃ t ∈ (BBox.aroundPoint pos pd.supply_radius).roundOutToTiles.iterTiles,
          t ∈ me.entity.worldBbox.iterTiles)) ∧
    ((m.poweredEntities pos pd).map ModelEntity.id).Nodup := by
  constructor
  · intro me
    unfold BpModel.poweredEntities
    constructor
    · intro h
      have h2 := dedupById_sub h
      rw [List.mem_filter] at h2
      obtain ⟨hL, hup⟩ := h2
      rw [List.mem_flatMap] at hL
      obtain ⟨t, ht, hg⟩ := hL
      obtain ⟨hlk, htw⟩ := mem_getAtTile_sound hwf hg
      exact ⟨hlk, hup, t, ht, htw⟩
    · rintro ⟨hlk, hup, t, ht, htw⟩
      apply dedupById_mem_of_mem
      · intro a ha b hb hab
        rw [List.mem_filter] at ha hb
        obtain ⟨ta, _, hga⟩ := List.mem_flatMap.1 ha.1
        obtain ⟨tb, _, hgb⟩ := List.mem_flatMap.1 hb.1
        have hA := (mem_getAtTile_sound hwf hga).1
        have hB := (mem_getAtTile_sound hwf hgb).1
        rw [hab] at hA
        rw [hB] at hA
        exact (Option.some.inj hA).symm
      · rw [List.mem_filter, List.mem_flatMap]
        exact ⟨⟨t, ht, mem_getAtTile_complete hwf hlk htw⟩, hup⟩
  · exact dedupById_nodup _

/-- C2 witness: the amended characterization applied to the concrete model
    `mC2` (one consumer at (0.5, 0.5)) and the pole parameters of the small
    pole placed at (2.5, 2.5). -/
theorem claim2_witness :
    (∀ me, me ∈ mC2.poweredEntities ⟨5/2, 5/2⟩ ⟨5/2, 15/2⟩ ↔
      (alookup me.id mC2.all_entities = some me ∧ me.entity.usesPower = true ∧
        ∃ t ∈ (BBox.aroundPoint ⟨5/2, 5/2⟩
            (PoleData.mk (5/2) (15/2)).supply_radius).roundOutToTiles.iterTiles,
          t ∈ me.entity.worldBbox.iterTiles)) ∧
    ((mC2.poweredEntities ⟨5/2, 5/2⟩ ⟨5/2, 15/2⟩).map ModelEntity.id).Nodup :=
  claim2_powered_box mC2 ⟨5/2, 5/2⟩ ⟨5/2, 15/2⟩ (by decide)

/-! ## Lemmas for claim C10: BpModel::remove. -/

theorem intRange_nodup (lo hi : ℤ) : (intRange lo hi).Nodup := by
  unfold intRange
  refine List.Nodup.map ?_ (List.nodup_range _)
  intro a b h
  have h2 : lo + (a : ℤ) = lo + (b : ℤ) := h
  omega

theorem iterTiles_flatMap_nodup (ys : List ℤ) (hys : ys.Nodup) :
    ∀ xs : List ℤ, xs.Nodup →
      (xs.flatMap (fun x => ys.map (fun y => (⟨x, y⟩ : TilePos)))).Nodup := by
  intro xs
  induction xs with
  | nil => intro _; simp
  | cons x rest ih =>
    intro hnd
    rw [List.flatMap_cons, List.nodup_append]
    refine ⟨?_, ih (List.nodup_cons.1 hnd).2, ?_⟩
    · refine List.Nodup.map ?_ hys
      intro a b h
      injection h with h1 h2
    · intro p hp1 hp2
      obtain ⟨y, hy1, hpy⟩ := List.mem_map.1 hp1
      obtain ⟨x', hx', hp3⟩ := List.mem_flatMap.1 hp2
      obtain ⟨y', hy', heq⟩ := List.mem_map.1 hp3
      rw [← hpy] at heq
      injection heq with hxx hyy
      rw [hxx] at hx'
      exact (List.nodup_cons.1 hnd).1 hx'

theorem TileBox.iterTiles_nodup (b : TileBox) : b.iterTiles.Nodup :=
  iterTiles_flatMap_nodup _ (intRange_nodup b.miny b.maxy) _
    (intRange_nodup b.minx b.maxx)

theorem wfB_parts2 {m : BpModel} (hwf : m.wfB = true) :
    (m.all_entities.map Prod.fst).Nodup ∧ (m.by_tile.map Prod.fst).Nodup ∧
    ∀ p ∈ m.by_tile, p.2 ≠ [] := by
  unfold BpModel.wfB at hwf
  simp only [Bool.and_eq_true, List.all_eq_true, decide_eq_true_eq] at hwf
  obtain ⟨⟨⟨h1, h2⟩, h3⟩, h4⟩ := hwf
  refine ⟨h1, h2, ?_⟩
  intro p hp hnil
  have h5 := (h4 p hp).1
  rw [hnil] at h5
  exact Bool.noConfusion (show false = true from h5)

theorem removeFold_ok (id : EntityId) :
    ∀ (rest : List TilePos) (bt : List (TilePos × List EntityId)),
      rest.Nodup →
      (bt.map Prod.fst).Nodup →
      (∀ t ∈ rest, id ∈ (alookup t bt).getD []) →
      (∀ t ids, alookup t bt = some ids → ids ≠ [] ∧ (id ∈ ids → t ∈ rest)) →
      ∃ bt', rest.foldlM
          (fun (bt : List (TilePos × List EntityId)) tile =>
            match alookup tile bt with
            | none => none
            | some ids =>
              let ids' := ids.filter (fun x => x ≠ id)
              some (if ids'.isEmpty then aerase tile bt else aupdate tile ids' bt))
          bt = some bt' ∧
        ∀ t ids, alookup t bt' = some ids → id ∉ ids ∧ ids ≠ [] := by
  intro rest
  induction rest with
  | nil =>
    intro bt _ hndb hb hc
    refine ⟨bt, rfl, ?_⟩
    intro t ids h
    refine ⟨fun hin => absurd ((hc t ids h).2 hin) (List.not_mem_nil t),
      (hc t ids h).1⟩
  | cons t rest ih =>
    intro bt hndr hndb hb hc
    have htr := List.nodup_cons.1 hndr
    cases hbt : alookup t bt with
    | none =>
      have h0 := hb t (List.mem_cons_self _ _)
      rw [hbt] at h0
      exact absurd h0 (List.not_mem_nil id)
    | some ids =>
      have hstep : (match alookup t bt with
          | none => none
          | some ids =>
            let ids' := ids.filter (fun x => x ≠ id)
            some (if ids'.isEmpty then aerase t bt else aupdate t ids' bt)) =
          some (if (ids.filter (fun x => x ≠ id)).isEmpty then aerase t bt
                else aupdate t (ids.filter (fun x => x ≠ id)) bt) := by
        rw [hbt]
      by_cases hcase : (ids.filter (fun x => x ≠ id)).isEmpty = true
      · rw [if_pos hcase] at hstep
        obtain ⟨bt', hf, hfin⟩ := ih (aerase t bt) htr.2
          (List.Nodup.sublist (List.Sublist.map Prod.fst (aerase_sublist t bt)) hndb)
          (fun u hu => by
            rw [alookup_aerase_ne bt (fun (hh : u = t) => htr.1 (hh ▸ hu))]
            exact hb u (List.mem_cons_of_mem _ hu))
          (fun u uids hlk => by
            have hu : u ≠ t := by
              intro hh
              rw [hh, alookup_aerase_self hndb] at hlk
              exact Option.noConfusion hlk
            rw [alookup_aerase_ne bt hu] at hlk
            refine ⟨(hc u uids hlk).1, fun hin => ?_⟩
            rcases List.mem_cons.1 ((hc u uids hlk).2 hin) with h1 | h1
            · exact absurd h1 hu
            · exact h1)
        refine ⟨bt', ?_, hfin⟩
        rw [List.foldlM_cons, hstep]
        exact hf
      · rw [if_neg hcase] at hstep
        obtain ⟨bt', hf, hfin⟩ := ih (aupdate t (ids.filter (fun x => x ≠ id)) bt)
          htr.2
          (by rw [aupdate_map_fst]; exact hndb)
          (fun u hu => by
            rw [alookup_aupdate_ne _ _ (fun (hh : u = t) => htr.1 (hh ▸ hu))]
            exact hb u (List.mem_cons_of_mem _ hu))
          (fun u uids hlk => by
            by_cases hu : u = t
            · rw [hu, alookup_aupdate_self _ (by rw [hbt]; rfl)] at hlk
              have huids := Option.some.inj hlk
              subst huids
              refine ⟨fun hnil => hcase (by rw [hnil]; rfl), fun hin => ?_⟩
              have hf2 := (List.mem_filter.1 hin).2
              exact absurd rfl (of_decide_eq_true hf2)
            · rw [alookup_aupdate_ne _ _ hu] at hlk
              refine ⟨(hc u uids hlk).1, fun hin => ?_⟩
              rcases List.mem_cons.1 ((hc u uids hlk).2 hin) with h1 | h1
              · exact absurd h1 hu
              · exact h1)
        refine ⟨bt', ?_, hfin⟩
        rw [List.foldlM_cons, hstep]
        exact hf

/-- C10 (confirmed): `BpModel::remove` panics exactly when the id is absent
    (modelled: `removeQ` returns `none`); on a well-formed model with the
    id present, every internal bucket `unwrap` succeeds, the call returns a
    model in which the id no longer resolves, and every remaining tile
    bucket is non-empty and free of the removed id. -/
theorem claim10_remove (m : BpModel) (id : EntityId) (hwf : m.wfB = true) :
    (m.get id = none → m.removeQ id = none) ∧
    (∀ e, m.get id = some e → ∃ m', m.removeQ id = some m' ∧
      m'.get id = none ∧
      ∀ tile ids', alookup tile m'.by_tile = some ids' →
        id ∉ ids' ∧ ids' ≠ []) := by
  obtain ⟨hnd1, hnd2, hne⟩ := wfB_parts2 hwf
  constructor
  · intro hg
    have hA : alookup id m.all_entities = none := hg
    unfold BpModel.removeQ
    rw [hA]
  · intro e hg
    have hA : alookup id m.all_entities = some e := hg
    obtain ⟨bt', hfold, hfin⟩ := removeFold_ok id e.entity.worldBbox.iterTiles
      m.by_tile (TileBox.iterTiles_nodup _) hnd2
      (fun t ht => (wfB_parts hwf).2.1 (id, e) (alookup_mem hA) t ht)
      (fun t ids hlk => by
        refine ⟨hne (t, ids) (alookup_mem hlk), fun hin => ?_⟩
        obtain ⟨me', hlk', ht'⟩ :=
          (wfB_parts hwf).2.2 (t, ids) (alookup_mem hlk) id hin
        rw [hA] at hlk'
        have hme := Option.some.inj hlk'
        rw [← hme] at ht'
        exact ht')
    have hrw : m.removeQ id =
        (e.entity.worldBbox.iterTiles.foldlM
          (fun (bt : List (TilePos × List EntityId)) tile =>
            match alookup tile bt with
            | none => none
            | some ids =>
              let ids' := ids.filter (fun x => x ≠ id)
              some (if ids'.isEmpty then aerase tile bt else aupdate tile ids' bt))
          m.by_tile).map
        (fun bt => modelWithBoth m bt (aerase id m.all_entities)) := by
      unfold BpModel.removeQ
      rw [hA]
      rfl
    rw [hfold] at hrw
    refine ⟨modelWithBoth m bt' (aerase id m.all_entities), hrw, ?_, ?_⟩
    · show alookup id (aerase id m.all_entities) = none
      exact alookup_aerase_self hnd1
    · intro tile ids' hlk
      exact hfin tile ids' hlk

/-- C10 witness: the remove theorem applied to the concrete one-entity
    model `mE10` and its id 1 (the present-id branch succeeds, and the
    absent-id branch is exercised by the panic direction at id 1 after
    removal being `none`). -/
theorem claim10_witness :
    (mE10.get 1 = none → mE10.removeQ 1 = none) ∧
    (∀ e, mE10.get 1 = some e → ∃ m', mE10.removeQ 1 = some m' ∧
      m'.get 1 = none ∧
      ∀ tile ids', alookup tile m'.by_tile = some ids' →
        1 ∉ ids' ∧ ids' ≠ []) :=
  claim10_remove mE10 1 (by decide)

/-! ## Lemmas for claim C3: the window-built maximally-connected graph. -/

theorem gridOrder_sound {m : BpModel} (hwf : m.wfB = true) {me : ModelEntity}
    (h : me ∈ m.allEntitiesGridOrder) :
    alookup me.id m.all_entities = some me := by
  unfold BpModel.allEntitiesGridOrder at h
  have h2 := dedupById_sub h
  obtain ⟨t, ht, hg⟩ := List.mem_flatMap.1 h2
  exact (mem_getAtTile_sound hwf hg).1

theorem poleData_prototype {me : ModelEntity} {pd : PoleData}
    {c : PoleConnections} (h : me.poleData = some (pd, c)) :
    me.entity.prototype.pole_data = some pd := by
  unfold ModelEntity.poleData at h
  cases hx : me.extra with
  | noExtra =>
    rw [hx] at h
    exact Option.noConfusion h
  | pole c' =>
    rw [hx] at h
    cases hp : me.entity.prototype.pole_data with
    | none =>
      rw [hp] at h
      exact Option.noConfusion h
    | some pd' =>
      rw [hp] at h
      have h2 : (pd', c') = (pd, c) := Option.some.inj h
      rw [show pd' = pd from congrArg Prod.fst h2]

theorem edgeJoins_true_cases {e : Nat × Nat × Q} {a b : Nat}
    (h : edgeJoins e a b = true) :
    (e.1 = a ∧ e.2.1 = b) ∨ (e.1 = b ∧ e.2.1 = a) := by
  unfold edgeJoins at h
  simp only [Bool.or_eq_true, Bool.and_eq_true, decide_eq_true_eq] at h
  exact h

theorem edgeJoins_false_flip {e : Nat × Nat × Q} {a b : Nat} {w : Q}
    (h : edgeJoins e a b = false) :
    edgeJoins (a, b, w) e.1 e.2.1 = false := by
  unfold edgeJoins at h ⊢
  simp only [Bool.or_eq_false_iff, Bool.and_eq_false_iff,
    decide_eq_false_iff_not] at h ⊢
  obtain ⟨h1, h2⟩ := h
  constructor
  · rcases h1 with h3 | h3
    · exact .inl (fun hh => h3 hh.symm)
    · exact .inr (fun hh => h3 hh.symm)
  · rcases h2 with h3 | h3
    · exact .inr (fun hh => h3 hh.symm)
    · exact .inl (fun hh => h3 hh.symm)

theorem pairwise_updateEdgeList {a b : Nat} {w : Q} :
    ∀ {es : List (Nat × Nat × Q)},
      List.Pairwise (fun e1 e2 => edgeJoins e2 e1.1 e1.2.1 = false) es →
      List.Pairwise (fun e1 e2 => edgeJoins e2 e1.1 e1.2.1 = false)
        (updateEdgeList a b w es) := by
  intro es
  induction es with
  | nil =>
    intro _
    exact List.pairwise_singleton _ _
  | cons e rest ih =>
    intro h
    rw [List.pairwise_cons] at h
    unfold updateEdgeList
    split_ifs with hj
    · rw [List.pairwise_cons]
      exact ⟨h.1, h.2⟩
    · rw [List.pairwise_cons]
      refine ⟨?_, ih h.2⟩
      intro x hx
      rcases mem_updateEdgeList hx with h1 | h1 | ⟨e0, he0, heq, hj0⟩
      · exact h.1 x h1
      · rw [h1]
        exact edgeJoins_false_flip (Bool.eq_false_iff.2 hj)
      · rw [heq]
        have := h.1 e0 he0
        unfold edgeJoins at this ⊢
        exact this
  
theorem innerFold_inv (m : BpModel) (idm : List (EntityId × Nat))
    (me : ModelEntity) (pd : PoleData)
    (hlook : alookup me.id m.all_entities = some me)
    (hpd : me.entity.prototype.pole_data = some pd) :
    ∀ (items : List EntityId) (g : Graph N),
      (∀ e ∈ g.edges, edgeSourced m idm e) →
      List.Pairwise (fun e1 e2 => edgeJoins e2 e1.1 e1.2.1 = false) g.edges →
      (∀ e ∈ (items.foldl (mcpInner m me pd idm) g).edges, edgeSourced m idm e) ∧
      List.Pairwise (fun e1 e2 => edgeJoins e2 e1.1 e1.2.1 = false)
        (items.foldl (mcpInner m me pd idm) g).edges := by
  intro items
  induction items with
  | nil =>
    intro g hP hPw
    exact ⟨hP, hPw⟩
  | cons other_id rest ih =>
    intro g hP hPw
    rw [List.foldl_cons]
    have hstep : ∀ g' : Graph N,
        (∀ e ∈ g'.edges, edgeSourced m idm e) →
        List.Pairwise (fun e1 e2 => edgeJoins e2 e1.1 e1.2.1 = false) g'.edges →
        (∀ e ∈ (mcpInner m me pd idm g' other_id).edges, edgeSourced m idm e) ∧
        List.Pairwise (fun e1 e2 => edgeJoins e2 e1.1 e1.2.1 = false)
          (mcpInner m me pd idm g' other_id).edges := by
      intro g' hP' hPw'
      unfold mcpInner
      split_ifs with hle
      · exact ⟨hP', hPw'⟩
      · cases hget : m.get other_id with
        | none => exact ⟨hP', hPw'⟩
        | some other =>
          show (∀ e ∈ (if BpModel.isConnectablePole me.entity.position pd
                  other.entity = true then
                g'.updateEdge ((alookup me.id idm).getD 0)
                  ((alookup other_id idm).getD 0)
                  (me.entity.position.sqDist other.entity.position)
              else g').edges, edgeSourced m idm e) ∧
            List.Pairwise (fun e1 e2 => edgeJoins e2 e1.1 e1.2.1 = false)
              (if BpModel.isConnectablePole me.entity.position pd
                  other.entity = true then
                g'.updateEdge ((alookup me.id idm).getD 0)
                  ((alookup other_id idm).getD 0)
                  (me.entity.position.sqDist other.entity.position)
              else g').edges
          split_ifs with hconn
          · have hlt : me.id < other_id := Nat.lt_of_not_le hle
            have hother : alookup other_id m.all_entities = some other := hget
            constructor
            · intro e he
              have he2 : e ∈ updateEdgeList ((alookup me.id idm).getD 0)
                  ((alookup other_id idm).getD 0)
                  (me.entity.position.sqDist other.entity.position)
                  g'.edges := he
              rcases mem_updateEdgeList he2 with h1 | h1 | ⟨e0, he0, heq, hj0⟩
              · exact hP' e h1
              · refine ⟨me.id, other_id, me, other, pd, hlt, hlook, hother,
                  hpd, hconn, ?_, ?_⟩
                · rw [h1]
                · rw [h1]
                  exact .inl ⟨rfl, rfl⟩
              · refine ⟨me.id, other_id, me, other, pd, hlt, hlook, hother,
                  hpd, hconn, ?_, ?_⟩
                · rw [heq]
                · rcases edgeJoins_true_cases hj0 with ⟨hh1, hh2⟩ | ⟨hh1, hh2⟩
                  · rw [heq]
                    exact .inl ⟨hh1, hh2⟩
                  · rw [heq]
                    exact .inr ⟨hh1, hh2⟩
            · exact pairwise_updateEdgeList hPw'
          · exact ⟨hP', hPw'⟩
    obtain ⟨h1, h2⟩ := hstep g hP hPw
    exact ih (mcpInner m me pd idm g other_id) h1 h2

theorem outerFold_inv (m : BpModel) (idm : List (EntityId × Nat))
    (hwf : m.wfB = true) :
    ∀ (l : List ModelEntity),
      (∀ me ∈ l, alookup me.id m.all_entities = some me) →
      ∀ (g : Graph N) (pw : PoleWindows),
        (∀ e ∈ g.edges, edgeSourced m idm e) →
        List.Pairwise (fun e1 e2 => edgeJoins e2 e1.1 e1.2.1 = false) g.edges →
        (∀ e ∈ ((l.foldl (mcpOuter m idm) (g, pw)).1).edges,
          edgeSourced m idm e) ∧
        List.Pairwise (fun e1 e2 => edgeJoins e2 e1.1 e1.2.1 = false)
          ((l.foldl (mcpOuter m idm) (g, pw)).1).edges := by
  intro l
  induction l with
  | nil =>
    intro _ g pw hP hPw
    exact ⟨hP, hPw⟩
  | cons me rest ih =>
    intro hsound g pw hP hPw
    rw [List.foldl_cons]
    cases hpd : me.poleData with
    | none =>
      have hstep : mcpOuter m idm (g, pw) me = (g, pw) := by
        unfold mcpOuter
        rw [hpd]
      rw [hstep]
      exact ih (fun x hx => hsound x (List.mem_cons_of_mem _ hx)) g pw hP hPw
    | some pdc =>
      obtain ⟨pd, c⟩ := pdc
      have hstep : mcpOuter m idm (g, pw) me =
          (((pw.getWindowFor wireReachRadius m me.entity).1).curItems.foldl
            (mcpInner m me pd idm) g,
           (pw.getWindowFor wireReachRadius m me.entity).2) := by
        unfold mcpOuter
        rw [hpd]
      rw [hstep]
      obtain ⟨h1, h2⟩ := innerFold_inv m idm me pd
        (hsound me (List.mem_cons_self _ _)) (poleData_prototype hpd)
        ((pw.getWindowFor wireReachRadius m me.entity).1).curItems g hP hPw
      exact ih (fun x hx => hsound x (List.mem_cons_of_mem _ hx)) _ _ h1 h2

theorem disconnectedFold_edges (m : BpModel) :
    ∀ (l : List (EntityId × ModelEntity)) (g : Graph WorldEntity)
      (idm : List (EntityId × Nat)),
      ((l.foldl
        (fun (acc : Graph WorldEntity × List (EntityId × Nat)) ie =>
          let (g, idm) := acc
          match ie.2.poleData with
          | none => (g, idm)
          | some _ => (g.addNode ie.2.entity, idm ++ [(ie.1, g.nodes.length)]))
        (g, idm)).1).edges = g.edges := by
  intro l
  induction l with
  | nil => intro g idm; rfl
  | cons ie rest ih =>
    intro g idm
    rw [List.foldl_cons]
    cases hpd : ie.2.poleData with
    | none => exact ih g idm
    | some pdc => exact ih (g.addNode ie.2.entity) (idm ++ [(ie.1, g.nodes.length)])

theorem disconnected_edges (m : BpModel) :
    (m.getDisconnectedPoleGraph).1.edges = [] :=
  disconnectedFold_edges m m.all_entities ⟨[], []⟩ []

/-- C3 (amended): over a well-formed model, the sliding-window-built
    maximally-connected pole graph is a subgraph of the naive pairwise
    definition: every edge is backed by two distinct present poles with
    `id(a) < id(b)` whose `is_connectable_pole` test accepts
    (`dist² ≤ min(wire_distance)² + 1e-6`), its weight is the (squared)
    Euclidean distance, its endpoints the entity-map indices of the two
    ids, and no two edges join the same unordered pair. -/
theorem claim3_window_subgraph (m : BpModel) (hwf : m.wfB = true) :
    (∀ e ∈ (m.getMaximallyConnectedPoleGraph).1.edges,
      edgeSourced m (m.getMaximallyConnectedPoleGraph).2 e) ∧
    List.Pairwise (fun e1 e2 => edgeJoins e2 e1.1 e1.2.1 = false)
      (m.getMaximallyConnectedPoleGraph).1.edges := by
  have h1 : (m.getMaximallyConnectedPoleGraph).1 =
      m.maximallyConnectPoles (m.getDisconnectedPoleGraph).1
        (m.getDisconnectedPoleGraph).2 := rfl
  have h2 : (m.getMaximallyConnectedPoleGraph).2 =
      (m.getDisconnectedPoleGraph).2 := rfl
  rw [h1, h2]
  have hbase := disconnected_edges m
  refine outerFold_inv m (m.getDisconnectedPoleGraph).2 hwf
    m.allEntitiesGridOrder (fun me hme => gridOrder_sound hwf hme)
    (m.getDisconnectedPoleGraph).1 ⟨[]⟩ ?_ ?_
  · rw [hbase]
    intro e he
    exact absurd he (List.not_mem_nil e)
  · rw [hbase]
    exact List.Pairwise.nil

/-- C3 witness: the subgraph theorem applied to the concrete two-pole
    model `mW3`, whose window construction emits exactly one edge. -/
theorem claim3_witness :
    (∀ e ∈ (mW3.getMaximallyConnectedPoleGraph).1.edges,
      edgeSourced mW3 (mW3.getMaximallyConnectedPoleGraph).2 e) ∧
    List.Pairwise (fun e1 e2 => edgeJoins e2 e1.1 e1.2.1 = false)
      (mW3.getMaximallyConnectedPoleGraph).1.edges :=
  claim3_window_subgraph mW3 (by decide)

end FBO
